import Mathlib

/-!
Verification of the SwipeStreet rule-based card synthesis pipeline
(`src/content/card_generator.py`).

Text is modelled as `List Char` (named `Str` below).  Python regular
expressions are translated into explicit character-list scanners: each
`re.sub`/`re.findall` call becomes a left-to-right scan that at every
position either recognises a match of that specific pattern (consuming at
least one character and continuing after the match, exactly as `re` does
for these patterns, none of which can match the empty string) or advances
one character.  The scanners take a fuel argument; the wrappers pass the
input length as fuel, which suffices because every step consumes at least
one character.  Character classes are the ASCII readings of Python's
`\s`, `\d`, `\w`, `[A-Z]`, `str.upper`, `str.lower` (the repository's
inputs and all counterexamples below are ASCII).
-/

set_option maxHeartbeats 4000000
set_option maxRecDepth 8000

namespace SwipeStreet

/-- Text is a list of characters. -/
abbrev Str := List Char

/-- Python `\s` (ASCII): space, tab, newline, carriage return, vertical tab, form feed. -/
def isSpc (c : Char) : Bool :=
  c = ' ' || c = '\t' || c = '\n' || c = '\r' || c = '\x0b' || c = '\x0c'

/-- Python `\w` (ASCII): letters, digits and underscore. -/
def wordChar (c : Char) : Bool :=
  c.isAlphanum || c = '_'

/-- Python `str.upper` on a single ASCII character, written as an explicit table. -/
def upChar (c : Char) : Char :=
  if c = 'a' then 'A' else if c = 'b' then 'B' else if c = 'c' then 'C'
  else if c = 'd' then 'D' else if c = 'e' then 'E' else if c = 'f' then 'F'
  else if c = 'g' then 'G' else if c = 'h' then 'H' else if c = 'i' then 'I'
  else if c = 'j' then 'J' else if c = 'k' then 'K' else if c = 'l' then 'L'
  else if c = 'm' then 'M' else if c = 'n' then 'N' else if c = 'o' then 'O'
  else if c = 'p' then 'P' else if c = 'q' then 'Q' else if c = 'r' then 'R'
  else if c = 's' then 'S' else if c = 't' then 'T' else if c = 'u' then 'U'
  else if c = 'v' then 'V' else if c = 'w' then 'W' else if c = 'x' then 'X'
  else if c = 'y' then 'Y' else if c = 'z' then 'Z' else c

/-- Python `str.lower` on a single ASCII character, written as an explicit table. -/
def downChar (c : Char) : Char :=
  if c = 'A' then 'a' else if c = 'B' then 'b' else if c = 'C' then 'c'
  else if c = 'D' then 'd' else if c = 'E' then 'e' else if c = 'F' then 'f'
  else if c = 'G' then 'g' else if c = 'H' then 'h' else if c = 'I' then 'i'
  else if c = 'J' then 'j' else if c = 'K' then 'k' else if c = 'L' then 'l'
  else if c = 'M' then 'm' else if c = 'N' then 'n' else if c = 'O' then 'o'
  else if c = 'P' then 'p' else if c = 'Q' then 'q' else if c = 'R' then 'r'
  else if c = 'S' then 's' else if c = 'T' then 't' else if c = 'U' then 'u'
  else if c = 'V' then 'v' else if c = 'W' then 'w' else if c = 'X' then 'x'
  else if c = 'Y' then 'y' else if c = 'Z' then 'z' else c

/-- Python `str.lower` over a whole string. -/
def toLowerS (s : Str) : Str := s.map downChar

/-- Does `p` occur at the very start of `s` (plain, case-sensitive)? -/
def startsWith : Str → Str → Bool
  | [], _ => true
  | _ :: _, [] => false
  | p :: ps, c :: cs => p = c && startsWith ps cs

/-- Does `p` occur at the start of `s` up to ASCII case (`re.IGNORECASE` on a
lowercase literal pattern)? -/
def startsWithCI : Str → Str → Bool
  | [], _ => true
  | _ :: _, [] => false
  | p :: ps, c :: cs => p = downChar c && startsWithCI ps cs

/-- Python `p in s`: `p` occurs somewhere inside `s`. -/
def containsStr (p : Str) : Str → Bool
  | [] => startsWith p []
  | s@(_ :: cs) => startsWith p s || containsStr p cs

/-- Python `s.endswith(p)`. -/
def endsWith (p s : Str) : Bool :=
  if p.length ≤ s.length then s.drop (s.length - p.length) = p else false

/-- Python `s[-n:]` for `n > 0`: the last `min n (length s)` characters. -/
def lastN (n : Nat) (s : Str) : Str := s.drop (s.length - n)

/-- One step of `re.sub(pat, '', text)`: scan left to right; `f` recognises a
match of `pat` at the current position and returns the rest of the text after
the match (the match itself is dropped); otherwise keep one character and move
on.  Every recognised match consumes at least one character, so fuel equal to
the input length suffices. -/
def scanSub (f : Str → Option Str) : Nat → Str → Str
  | 0, l => l
  | _ + 1, [] => []
  | n + 1, c :: cs =>
    match f (c :: cs) with
    | some rest => scanSub f n rest
    | none => c :: scanSub f n cs

/-- `re.sub(r'\s+', ' ', text)`: every maximal whitespace run becomes one space. -/
def collapseWs : Str → Str
  | [] => []
  | [c] => [if isSpc c then ' ' else c]
  | c :: d :: r =>
    if isSpc c && isSpc d then collapseWs (d :: r)
    else (if isSpc c then ' ' else c) :: collapseWs (d :: r)

/-- Remove trailing whitespace. -/
def trimRight : Str → Str
  | [] => []
  | c :: r =>
    let t := trimRight r
    if t = [] && isSpc c then [] else c :: t

/-- Python `str.strip()` (ASCII whitespace). -/
def strip (s : Str) : Str := trimRight (s.dropWhile isSpc)

/-- Match of `Exhibit \d+` at the current position (card_generator.py line 109):
the literal `Exhibit `, then a maximal nonempty digit run. -/
def tryExhibit (l : Str) : Option Str :=
  if startsWith "Exhibit ".data l then
    let r := l.drop 8
    let d := r.takeWhile Char.isDigit
    if d = [] then none else some (r.drop d.length)
  else none

/-- Match of `on \d+-\w+-\d+` at the current position (the tail of the
`For the exclusive use of` pattern, line 110). -/
def onDate (l : Str) : Option Str :=
  if startsWith "on ".data l then
    let r := l.drop 3
    let d1 := r.takeWhile Char.isDigit
    if d1 = [] then none else
    match r.drop d1.length with
    | '-' :: r2 =>
      let w := r2.takeWhile wordChar
      if w = [] then none else
      match r2.drop w.length with
      | '-' :: r3 =>
        let d2 := r3.takeWhile Char.isDigit
        if d2 = [] then none else some (r3.drop d2.length)
      | _ => none
    | _ => none
  else none

/-- The non-greedy `.*?on \d+-\w+-\d+` part: the shortest extension (never
crossing a newline, since `.` does not match one) after which the date part
matches; `none` when no such extension exists. -/
def exclSpan : Str → Option Str
  | [] => none
  | c :: r =>
    match onDate (c :: r) with
    | some rest => some rest
    | none => if c = '\n' then none else exclSpan r

/-- Match of `For the exclusive use of.*?on \d+-\w+-\d+` at the current
position (line 110). -/
def tryExclusive (l : Str) : Option Str :=
  if startsWith "For the exclusive use of".data l then exclSpan (l.drop 24) else none

/-- The `(?=\.|$)` lookahead target of the `Source:` pattern: the shortest
non-greedy extension after which the next character is `.` or the string ends
(Python `$` also matches just before one final newline); the returned rest
still contains the lookahead character since a lookahead consumes nothing. -/
def sourceSpan : Str → Option Str
  | [] => some []
  | c :: r =>
    if c = '.' then some (c :: r)
    else if c = '\n' then (if r = [] then some (c :: r) else none)
    else sourceSpan r

/-- Match of `Source:.*?(?=\.|$)` at the current position (line 111). -/
def trySource (l : Str) : Option Str :=
  if startsWith "Source:".data l then sourceSpan (l.drop 7) else none

/-- `clean_text` (card_generator.py lines 106-112): collapse whitespace,
remove `Exhibit \d+`, remove `For the exclusive use of.*?on \d+-\w+-\d+`,
remove `Source:.*?(?=\.|$)`, then strip. -/
def clean_text (t : Str) : Str :=
  let t1 := collapseWs t
  let t2 := scanSub tryExhibit t1.length t1
  let t3 := scanSub tryExclusive t2.length t2
  let t4 := scanSub trySource t3.length t3
  strip t4

/-- Scan for `re.findall(pat, text)`: `f` recognises a match at the current
position, returning the matched text and the rest after the match; the list of
matches is returned in left-to-right order. -/
def scanFind (f : Str → Option (Str × Str)) : Nat → Str → List Str
  | 0, _ => []
  | _ + 1, [] => []
  | n + 1, c :: cs =>
    match f (c :: cs) with
    | some (m, rest) => m :: scanFind f n rest
    | none => scanFind f n cs

/-- Case-insensitive match of the lowercase literal `w` at the start of `l`,
returning the actual matched characters and the rest. -/
def matchCI (w : Str) (l : Str) : Option (Str × Str) :=
  if startsWithCI w l then some (l.take w.length, l.drop w.length) else none

/-- First alternative of an ordered alternation of lowercase literals that
matches at the start of `l` (`re` tries alternatives left to right). -/
def matchAltCI : List Str → Str → Option (Str × Str)
  | [], _ => none
  | w :: ws, l =>
    match matchCI w l with
    | some r => some r
    | none => matchAltCI ws l

/-- The `\d+(?:\.\d+)?` part shared by all four number patterns: a maximal
nonempty digit run, then greedily an optional fraction; `k` matches the rest of
the pattern.  `re` first tries the variant with the fraction, then backtracks
to the variant without it (taking fewer digits in `\d+` or `\.\d+` can never
help: the following character would be a digit, which none of the
continuations can start with). -/
def tryFracThen (k : Str → Option (Str × Str)) (d r1 : Str) : Option (Str × Str) :=
  match r1 with
  | c :: r2 =>
    if c = '.' then
      if (r2.takeWhile Char.isDigit) = [] then none
      else
        match k (r2.drop (r2.takeWhile Char.isDigit).length) with
        | some (m, rest) => some (d ++ '.' :: (r2.takeWhile Char.isDigit ++ m), rest)
        | none => none
    else none
  | [] => none

/-- See the doc comment on `tryFracThen` use below: the maximal digit run, the
greedy optional fraction (tried first, as `re` does), then the continuation
`k`; backtracking into shorter digit runs can never succeed because the next
character would still be a digit. -/
def tryNumThen (k : Str → Option (Str × Str)) (l : Str) : Option (Str × Str) :=
  if (l.takeWhile Char.isDigit) = [] then none
  else
    match tryFracThen k (l.takeWhile Char.isDigit) (l.drop (l.takeWhile Char.isDigit).length) with
    | some x => some x
    | none =>
      match k (l.drop (l.takeWhile Char.isDigit).length) with
      | some (m, rest) => some (l.takeWhile Char.isDigit ++ m, rest)
      | none => none

/-- The closing `%` of the percentage pattern. -/
def percentTail (r : Str) : Option (Str × Str) :=
  match r with
  | c :: rest => if c = '%' then some ([c], rest) else none
  | [] => none

/-- Match of `(\d+(?:\.\d+)?%)` at the current position (line 118). -/
def tryPercent (l : Str) : Option (Str × Str) :=
  tryNumThen percentTail l

/-- The optional `(?:\s*(?:billion|million|bn|mn|B|M))?` suffix of the dollar
pattern: greedy whitespace, then the first alternative that matches
(case-insensitively); if none does, the optional group matches nothing. -/
def dollarSuffix (r : Str) : Option (Str × Str) :=
  match matchAltCI ["billion".data, "million".data, "bn".data, "mn".data, "b".data, "m".data]
      (r.drop (r.takeWhile isSpc).length) with
  | some (w, rest) => some (r.takeWhile isSpc ++ w, rest)
  | none => some ([], r)

/-- Match of `(\$\d+(?:\.\d+)?(?:\s*(?:billion|million|bn|mn|B|M))?)` at the
current position (line 119). -/
def tryDollar (l : Str) : Option (Str × Str) :=
  match l with
  | c :: r =>
    if c = '$' then
      match tryNumThen dollarSuffix r with
      | some (m, rest) => some (c :: m, rest)
      | none => none
    else none
  | [] => none

/-- The closing `x` of the multiple pattern, either case under
`re.IGNORECASE`. -/
def multTail (r : Str) : Option (Str × Str) :=
  match r with
  | c :: rest => if c = 'x' || c = 'X' then some ([c], rest) else none
  | [] => none

/-- Match of `(\d+(?:\.\d+)?x)` at the current position (line 120). -/
def tryMult (l : Str) : Option (Str × Str) :=
  tryNumThen multTail l

/-- The mandatory `\s*(?:billion|million|bn|mn)` suffix of the bare-amount
pattern. -/
def amountSuffix (r : Str) : Option (Str × Str) :=
  match matchAltCI ["billion".data, "million".data, "bn".data, "mn".data]
      (r.drop (r.takeWhile isSpc).length) with
  | some (w, rest) => some (r.takeWhile isSpc ++ w, rest)
  | none => none

/-- Match of `(\d+(?:\.\d+)?(?:\s*(?:billion|million|bn|mn)))` at the current
position (line 121): like the dollar suffix but mandatory and without the
one-letter forms. -/
def tryAmount (l : Str) : Option (Str × Str) :=
  tryNumThen amountSuffix l

/-- `extract_numbers` (lines 115-127): all matches of the four patterns, one
pattern family at a time in the listed order, truncated to the first 3. -/
def extract_numbers (t : Str) : List Str :=
  (scanFind tryPercent t.length t ++ scanFind tryDollar t.length t ++
    scanFind tryMult t.length t ++ scanFind tryAmount t.length t).take 3

/-- One step of `re.sub(r'\b<word>\b', '', text, flags=re.IGNORECASE)` used by
`remove_hedging`: the previous character (if any) must not be a word character,
the lowercase literal must match case-insensitively, and the following
character (if any) must not be a word character; returns the last matched
character (which becomes the new previous character) and the rest. -/
def tryWordB (w : Str) (prev : Option Char) (l : Str) : Option (Char × Str) :=
  if (match prev with | none => true | some p => !wordChar p) then
    match matchCI w l with
    | some (m, rest) =>
      if (match rest with | [] => true | c :: _ => !wordChar c) then
        match m.getLast? with
        | some c => some (c, rest)
        | none => none
      else none
    | none => none
  else none

/-- Scan for a substitution whose pattern needs to look at the previous
character (`\b` and lookbehinds). -/
def scanSubP (f : Option Char → Str → Option (Char × Str)) :
    Nat → Option Char → Str → Str
  | 0, _, l => l
  | _ + 1, _, [] => []
  | n + 1, prev, c :: cs =>
    match f prev (c :: cs) with
    | some (p, rest) => scanSubP f n (some p) rest
    | none => c :: scanSubP f n (some c) cs

/-- Remove every whole-word occurrence of the hedge `w` (one `re.sub` of
lines 132-139). -/
def subHedge (w : String) (s : Str) : Str :=
  scanSubP (tryWordB w.data) s.length none s

/-- `remove_hedging` (lines 130-140): the thirteen hedge patterns are removed
in the listed order, then whitespace is collapsed and the ends stripped. -/
def remove_hedging (t : Str) : Str :=
  let t := subHedge "may" t
  let t := subHedge "might" t
  let t := subHedge "could" t
  let t := subHedge "potentially" t
  let t := subHedge "likely" t
  let t := subHedge "probably" t
  let t := subHedge "possibly" t
  let t := subHedge "perhaps" t
  let t := subHedge "seems to" t
  let t := subHedge "appears to" t
  let t := subHedge "tends to" t
  let t := subHedge "in our view" t
  let t := subHedge "in our opinion" t
  strip (collapseWs t)

/-- One anchored removal `re.sub(r'^<words>\s*', '', text, flags=re.IGNORECASE)`
of `clean_prose`: if the literal matches at the start, drop it together with
the following whitespace. -/
def stripPat (w : String) (s : Str) : Str :=
  if startsWithCI w.data s then (s.drop w.data.length).dropWhile isSpc else s

/-- An anchored removal whose pattern ends in `,?\s*`. -/
def stripPatComma (w : String) (s : Str) : Str :=
  if startsWithCI w.data s then
    (match s.drop w.data.length with
     | ',' :: r => r
     | r => r).dropWhile isSpc
  else s

/-- The alternation pattern `^the key (insight|point|takeaway) is that\s*`. -/
def stripKeyPat (s : Str) : Str :=
  if startsWithCI "the key insight is that".data s then
    (s.drop 23).dropWhile isSpc
  else if startsWithCI "the key point is that".data s then
    (s.drop 21).dropWhile isSpc
  else if startsWithCI "the key takeaway is that".data s then
    (s.drop 24).dropWhile isSpc
  else s

/-- Python `text[0].upper() + text[1:]` (lines 161-162). -/
def capFirst : Str → Str
  | [] => []
  | c :: r => upChar c :: r

/-- `clean_prose` (lines 143-164): remove the leading research meta-phrases in
the listed order, collapse and strip whitespace, and capitalize the first
character. -/
def clean_prose (t : Str) : Str :=
  let t := stripPat "we believe that" t
  let t := stripPat "we believe" t
  let t := stripPat "we think that" t
  let t := stripPat "we think" t
  let t := stripPat "we expect that" t
  let t := stripPat "we expect" t
  let t := stripPat "our view is that" t
  let t := stripPat "it is important to note that" t
  let t := stripPatComma "importantly" t
  let t := stripPatComma "critically" t
  let t := stripPatComma "in conclusion" t
  let t := stripPat "the bottom line is that" t
  let t := stripKeyPat t
  capFirst (strip (collapseWs t))

/-- Python `s.endswith(('.', '!', '?'))`. -/
def endsPunct (t : Str) : Bool :=
  endsWith ".".data t || endsWith "!".data t || endsWith "?".data t

/-- The terminal punctuation class `[.!?]`. -/
def isPunctC (c : Char) : Bool := c = '.' || c = '!' || c = '?'

/-- `re.split(r'[.!?]', text)`: the pieces between terminal punctuation
characters (consecutive delimiters give empty pieces, as in Python). -/
def splitPunct : Str → List Str
  | [] => [[]]
  | c :: r =>
    if isPunctC c then [] :: splitPunct r
    else
      match splitPunct r with
      | [] => [[c]]
      | p :: ps => (c :: p) :: ps

/-- The raw pieces of a whitespace split. -/
def splitWsRaw : Str → List Str
  | [] => [[]]
  | c :: r =>
    if isSpc c then [] :: splitWsRaw r
    else
      match splitWsRaw r with
      | [] => [[c]]
      | p :: ps => (c :: p) :: ps

/-- Python `s.split()`: split on whitespace runs, dropping empty pieces. -/
def splitWs (s : Str) : List Str := (splitWsRaw s).filter (· ≠ [])

/-- Python `s.rstrip('.!?')`: drop every trailing `.`, `!` or `?`. -/
def rstripPunct : Str → Str
  | [] => []
  | c :: r =>
    let t := rstripPunct r
    if t = [] && (c = '.' || c = '!' || c = '?') then [] else c :: t

/-- A match of `\b(\w+)\s+\1\b` starting exactly at the head of `l` (which is
known to sit at a word boundary): the backreference forces the group to be the
entire maximal word run (a shorter group would be followed by a word character
where `\s+` must match), then whitespace, then the same run again followed by a
non-word character or the end. -/
def repAt (l : Str) : Bool :=
  let w := l.takeWhile wordChar
  if w = [] then false
  else
    let r := l.drop w.length
    let sp := r.takeWhile isSpc
    if sp = [] then false
    else
      let r2 := r.drop sp.length
      startsWith w r2 &&
        (match r2.drop w.length with
         | [] => true
         | c :: _ => !wordChar c)

/-- `re.search(r'\b(\w+)\s+\1\b', text)` as a boolean: some position carries a
repeated adjacent word (case-sensitively, as in the source). -/
def hasRepAux : Option Char → Str → Bool
  | _, [] => false
  | prev, c :: cs =>
    ((match prev with | none => true | some p => !wordChar p) && repAt (c :: cs)) ||
      hasRepAux (some c) cs

/-- Immediately repeated word check of `is_complete_card` (line 196). -/
def hasRepeatedWord (s : Str) : Bool := hasRepAux none s

/-- The dangling-word stoplist of `is_complete_card` (lines 180-184). -/
def badEndings : List Str :=
  ["such as", "including", "for example", "e.g.", "i.e.",
   "which", "that", "and", "or", "but", "the", "a", "an",
   "to", "of", "in", "on", "at", "by", "for", "with"].map String.data

/-- The known malformed research fragments of `is_complete_card`
(lines 200-206). -/
def researchFragments : List Str :=
  ["current estimates the current", "the understanding of", "entities such as",
   "consultancies", "volumes are wrong"].map String.data

/-- The sentence count used by `is_complete_card` (line 191). -/
def sentencesOf (t : Str) : List Str :=
  ((splitPunct t).map strip).filter (· ≠ [])

/-- `is_complete_card` (lines 167-211). -/
def is_complete_card (t0 : Str) : Bool :=
  let t := strip t0
  if !endsPunct t then false
  else if endsWith "...".data t || containsStr "...".data (lastN 20 t) then false
  else if (match (splitWs (rstripPunct t)).getLast? with
           | some w => badEndings.contains (toLowerS w)
           | none => false) then false
  else if (sentencesOf t).length < 2 then false
  else if hasRepeatedWord t then false
  else if researchFragments.any (fun f => containsStr f (toLowerS t)) then false
  else true

/-- Second alternative of the ticker pattern (line 431):
`(?<![a-zA-Z])([A-Z]{2,4})(?:\s+(?:US|LN|GR|FP))`.  The groups of `{2,4}` can
only succeed on the entire maximal uppercase run (a shorter take is followed by
an uppercase letter where `\s+` must match), so the run length must be between
2 and 4; returns the captured group, the last character consumed and the rest. -/
def tryTickerAlt2 (prev : Option Char) (l : Str) : Option (Str × Char × Str) :=
  let lookbehindOk := match prev with | none => true | some p => !p.isAlpha
  if !lookbehindOk then none
  else
    let u := l.takeWhile Char.isUpper
    if 2 ≤ u.length && u.length ≤ 4 then
      let r := l.drop u.length
      let sp := r.takeWhile isSpc
      if sp = [] then none
      else
        let r2 := r.drop sp.length
        if startsWith "US".data r2 || startsWith "LN".data r2 ||
            startsWith "GR".data r2 || startsWith "FP".data r2 then
          some (u, (r2.take 2).getLastD ' ', r2.drop 2)
        else none
    else none

/-- The full ticker pattern `\$([A-Z]{2,5})|...` at the current position, first
alternative first (`re` tries alternatives left to right at each position). -/
def tryTicker (prev : Option Char) (l : Str) : Option (Str × Char × Str) :=
  match l with
  | '$' :: r =>
    let u := (r.takeWhile Char.isUpper).take 5
    if 2 ≤ u.length then some (u, u.getLastD ' ', r.drop u.length)
    else tryTickerAlt2 prev l
  | _ => tryTickerAlt2 prev l

/-- Scan for `re.findall` with a pattern that needs the previous character. -/
def scanFindP (f : Option Char → Str → Option (Str × Char × Str)) :
    Nat → Option Char → Str → List Str
  | 0, _, _ => []
  | _ + 1, _, [] => []
  | n + 1, prev, c :: cs =>
    match f prev (c :: cs) with
    | some (g, p, rest) => g :: scanFindP f n (some p) rest
    | none => scanFindP f n (some c) cs

/-- The nonempty ticker groups found in the raw text, in match order
(`t[0] or t[1]` of line 432 picks whichever group is nonempty). -/
def tickerCandidates (raw : Str) : List Str := scanFindP tryTicker raw.length none raw

/-- The ticker exclusion set (line 433). -/
def tickerSkip : List Str :=
  ["THE", "AND", "FOR", "ARE", "WE", "OUR", "CEO", "GDP", "EPS", "USD", "EUR",
   "THIS", "THAT", "LME", "WSA"].map String.data

/-- A model of CPython's `list(set(xs))`: some deduplication of `xs` in an
enumeration order that is not fixed across processes (string hashing is
randomized per run).  A run of the program corresponds to a choice of such an
order. -/
abbrev SetOrder := List Str → List Str

/-- What every CPython `list(set(xs))` satisfies: the result has no duplicates
and exactly the members of `xs`. -/
def ValidOrder (o : SetOrder) : Prop :=
  ∀ xs, (o xs).Nodup ∧ ∀ a, a ∈ o xs ↔ a ∈ xs

/-- Lines 431-434: candidate tickers, deduplicated by `set` in the run's
enumeration order, filtered against the exclusion set, capped at 3. -/
def tickersOf (o : SetOrder) (raw : Str) : List Str :=
  ((o (tickerCandidates raw)).filter (fun t => !tickerSkip.contains t)).take 3

/-- An emitted card (lines 464-474).  The `id` (a fresh `uuid`) and
`created_at` (the wall clock) fields are environment-supplied identifiers that
every claim explicitly excludes, so they are not part of the model. -/
structure Card where
  type : Str
  content : Str
  expanded : Str
  tickers : List Str
  source : Str
  source_title : Str
  categories : List Str
deriving DecidableEq, Repr

/-- An input record: a Python dict whose relevant keys may be absent.  A
present key with an empty-string value is `some []`, an absent key is
`none` (`title` defaults to `""` everywhere it is read, so it is plain). -/
structure Insight where
  insight : Option Str
  view : Option Str
  prediction : Option Str
  title : Str
  categories : Option (List Str)
  content : Option Str
  text : Option Str
deriving DecidableEq, Repr

/-- `insight.get("insight", insight.get("view", insight.get("prediction", "")))`
(line 372). -/
def rawOf (ins : Insight) : Str :=
  ins.insight.getD (ins.view.getD (ins.prediction.getD []))

/-- The per-category principle paragraphs of `generate_expanded_content`
(lines 254-262). -/
def principleFor (category : Str) : Str :=
  if category = "Valuation".data then
    "Valuation is ultimately about comparing what you pay to what you get. Markets frequently misprice assets when they extrapolate recent trends too far into the future, or when they fail to account for mean reversion in business fundamentals.".data
  else if category = "Moats".data then
    "Sustainable competitive advantages come from structural barriers that competitors cannot easily replicate. The key is distinguishing between temporary advantages and durable moats that compound over time.".data
  else if category = "Psychology".data then
    "Markets are driven by human behavior, which creates predictable patterns of overreaction and underreaction. Understanding these behavioral biases helps investors recognize when prices deviate from fundamentals.".data
  else if category = "Business Models".data then
    "How a company makes money determines its long-term trajectory. Business model analysis reveals whether current earnings are sustainable and how management decisions affect future cash flows.".data
  else if category = "Capital Allocation".data then
    "How management deploys capital often matters more than the underlying business quality. Great businesses can be destroyed by poor capital allocation, while mediocre businesses can create value through disciplined decisions.".data
  else if category = "Cycles".data then
    "Industries and markets move in cycles that create recurring opportunities. Recognizing where you are in a cycle helps avoid buying at peaks and selling at troughs.".data
  else if category = "Data".data then
    "The right metrics reveal what really drives business performance. Focusing on leading indicators rather than lagging ones helps anticipate changes before they appear in financial statements.".data
  else
    "Markets are driven by human behavior, which creates predictable patterns of overreaction and underreaction. Understanding these behavioral biases helps investors recognize when prices deviate from fundamentals.".data

/-- The per-category application paragraphs (lines 264-272). -/
def applicationFor (category : Str) : Str :=
  if category = "Valuation".data then
    "When evaluating investments, compare the current price to historical ranges and peer valuations. Ask what assumptions are embedded in the price, and whether those assumptions are reasonable given the business fundamentals.".data
  else if category = "Moats".data then
    "Look for businesses with pricing power, high switching costs, network effects, or cost advantages. Test the moat by asking: what would it take for a well-funded competitor to replicate this advantage?".data
  else if category = "Psychology".data then
    "Notice when market sentiment becomes extreme in either direction. Ask whether the consensus view is based on facts or on extrapolation of recent events. Variant perceptions often emerge when reality differs from expectations.".data
  else if category = "Business Models".data then
    "Map out how revenue flows through the business and what drives profitability. Consider how industry changes might affect each component of the model, and whether management has flexibility to adapt.".data
  else if category = "Capital Allocation".data then
    "Track management\x27s capital allocation decisions over time. Compare returns on invested capital to the cost of capital, and assess whether acquisitions and investments have created or destroyed value.".data
  else if category = "Cycles".data then
    "Study the historical patterns in the industry and identify the typical cycle length and amplitude. Watch for leading indicators that signal cycle turns, and maintain discipline when cycles stretch longer than expected.".data
  else if category = "Data".data then
    "Identify the 2-3 metrics that most directly drive the investment thesis. Understand what causes these metrics to change, and establish thresholds that would cause you to reassess your view.".data
  else
    "Notice when market sentiment becomes extreme in either direction. Ask whether the consensus view is based on facts or on extrapolation of recent events. Variant perceptions often emerge when reality differs from expectations.".data

/-- The template fallback of `generate_expanded_content` (lines 274-282):
principle, a fixed connective paragraph, and application. -/
def templateExpanded (category : Str) : Str :=
  principleFor category ++ "\n\n".data ++
    "This insight demonstrates these dynamics in practice. The pattern observed here has played out across many different industries and time periods, suggesting it reflects fundamental market behavior rather than a one-time occurrence.".data ++
    "\n\n".data ++ applicationFor category

/-- The outcome of the optional external deep-dive call: no client configured,
the call raised, or the call returned a text. -/
inductive ExtCall where
  | noClient : ExtCall
  | raised : ExtCall
  | returned : Str → ExtCall
deriving DecidableEq

/-- `generate_expanded_content` (lines 214-282).  The external call is modelled
by its outcome `ext`; an exception is caught inside the function (printed and
ignored), so every outcome falls through to the template path unless a
response longer than 100 characters (after stripping) came back.
`card_content`, `card_type` and `source_content` are accepted and ignored
exactly as the fallback path of the source ignores them. -/
def generate_expanded_content (ext : ExtCall) (card_content category card_type source_content : Str) : Str :=
  match ext with
  | .returned t =>
    let expanded := strip t
    if expanded.length > 100 then expanded else templateExpanded category
  | _ => templateExpanded category

/-- The contrarian keyword list of the type classifier (line 423). -/
def contrarianKws : List Str :=
  ["contrary", "unlike", "wrong", "disagree", "consensus", "miss"].map String.data

/-- The mechanic keyword list of the type classifier (line 427). -/
def mechanicKws : List Str :=
  ["because", "driven by", "due to", "works by", "mechanism"].map String.data

/-- Lines 420-428: the card type, first match wins. -/
def ruleType (content : Str) (numbers : List Str) : Str :=
  let lower := toLowerS content
  if contrarianKws.any (fun w => containsStr w lower) then "contrarian".data
  else if numbers ≠ [] then "stat".data
  else if mechanicKws.any (fun w => containsStr w lower) then "mechanic".data
  else "insight".data

/-- The `type_to_category` lookup (lines 448-453) with its `.get` default. -/
def type_to_category (card_type : Str) : Str :=
  if card_type = "contrarian".data then "Psychology".data
  else if card_type = "stat".data then "Data".data
  else if card_type = "mechanic".data then "Business Models".data
  else if card_type = "insight".data then "Psychology".data
  else "Psychology".data

/-- The per-type expanded templates of the rule path (lines 457-462), with the
`.get` default sending every other type to the mechanic template. -/
def expandedTemplateFor (card_type : Str) : Str :=
  if card_type = "contrarian".data then
    "Markets frequently anchor to conventional wisdom long after the underlying reality has changed. This represents a classic case where consensus thinking missed an important shift. When most investors agree on something, it often means the obvious factors are already priced in.\n\nThe outcome here illustrates why variant perception matters in investing. Being right is not enough—you need to be right when others are wrong. The challenge is distinguishing genuine insight from contrarian positioning for its own sake.\n\nTo apply this pattern, look for situations where the consensus relies on stale assumptions or ignores structural changes. Ask yourself: what would need to be true for the consensus to be correct, and is that still the case?".data
  else if card_type = "stat".data then
    "Data only becomes valuable when placed in proper context. This metric reveals something important about the underlying business dynamics, but only when compared against the right benchmarks. A number in isolation tells you very little.\n\nThe key lesson is that great investors develop frameworks for contextualizing data quickly. They instinctively compare against historical ranges, peer medians, and their own expectations. The signal comes from deviation from these baselines.\n\nWhen evaluating metrics, always ask: Is this above or below historical averages? How does it compare to competitors? What would cause this number to change materially in either direction?".data
  else
    "Understanding the mechanics of how businesses actually operate provides an edge over surface-level analysis. Most investors focus on \x27what happened\x27 without understanding \x27why\x27 it happened. This deeper knowledge enables better predictions.\n\nThe pattern here generalizes beyond this specific example. Once you understand a business mechanism, you can recognize similar dynamics across different industries. Business models often rhyme across sectors and time periods.\n\nTo build this kind of structural knowledge, focus on understanding causation rather than just correlation. Ask how the business creates value, what drives its margins, and what could disrupt its model.".data

/-- Line 382: split the cleaned content into candidate sentences, stripped,
keeping those longer than 15 characters. -/
def sentencesSplit (content : Str) : List Str :=
  ((splitPunct content).map strip).filter (fun s => decide (15 < s.length))

/-- Lines 387-395: the best sentence — the first candidate containing an
extracted number, else the first candidate. -/
def bestOf (ins : Insight) : Str :=
  let content := clean_text (rawOf ins)
  let numbers := extract_numbers content
  let sentences := sentencesSplit content
  (sentences.find? (fun s =>
    numbers.any (fun n => containsStr (toLowerS n) (toLowerS s)))).getD (sentences.headD [])

/-- Lines 397-402: the context sentence — the first other candidate longer
than 20 characters, else empty. -/
def contextOf (ins : Insight) : Str :=
  ((sentencesSplit (clean_text (rawOf ins))).find?
    (fun s => s != bestOf ins && decide (20 < s.length))).getD []

/-- Lines 404-408: `f"{best_sentence}. {context_sentence}"` when a context
sentence exists, else the best sentence alone. -/
def joinedOf (ins : Insight) : Str :=
  if contextOf ins = [] then bestOf ins
  else bestOf ins ++ ". ".data ++ contextOf ins

/-- Line 410: the composed card text, after hedging removal and prose
cleanup. -/
def composedOf (ins : Insight) : Str :=
  clean_prose (remove_hedging (joinedOf ins))

/-- Python `card_text.split('. ')[0]`: everything before the first `. `
occurrence (the whole text when there is none). -/
def firstDotSplit : Str → Str
  | [] => []
  | c :: cs => if startsWith ". ".data (c :: cs) then [] else c :: firstDotSplit cs

/-- The orphan-start condition of line 439. -/
def startsOrphan (t : Str) : Bool :=
  startsWith "that ".data t || startsWith "this ".data t || startsWith "it ".data t

/-- Line 441: `card_text[card_text.find(' ', 5)+1:] if ' ' in card_text[5:15]
else card_text`. -/
def orphanFix (card_text : Str) : Str :=
  if ((card_text.drop 5).take 10).contains ' ' then
    match (card_text.drop 5).findIdx? (fun c => c = ' ') with
    | some i => card_text.drop (5 + i + 1)
    | none => card_text
  else card_text

/-- Lines 420-474: everything after the length-280 truncation; `ct` is the
(possibly truncated) composed card text. -/
def buildCard (o : SetOrder) (raw content : Str) (numbers : List Str) (title : Str) (ct : Str) :
    List Card :=
  let card_type := ruleType content numbers
  let tickers := tickersOf o raw
  if ct.length < 30 then []
  else
    let ct2 := if startsOrphan ct then orphanFix ct else ct
    if !is_complete_card ct2 then []
    else
      [⟨card_type, ct2, expandedTemplateFor card_type, tickers, "bernstein".data, title,
        [type_to_category card_type]⟩]

/-- `generate_card_rules` (lines 370-474). -/
def generate_card_rules (o : SetOrder) (ins : Insight) : List Card :=
  let raw := rawOf ins
  let content := clean_text raw
  if content.length < 40 then []
  else
    let numbers := extract_numbers content
    let sentences := sentencesSplit content
    if sentences.length = 0 then []
    else
      let ct0 := composedOf ins
      if 280 < ct0.length then
        let ct1 := firstDotSplit ct0 ++ ['.']
        if 280 < ct1.length then [] else buildCard o raw content numbers ins.title ct1
      else buildCard o raw content numbers ins.title ct0

/-- One report object of the AI-views batch: `title` and `key_views`
(lines 555-559). -/
structure Report where
  title : Str
  key_views : List Str
deriving DecidableEq, Repr

/-- The four batches that `load_data`/`main` process, already loaded. -/
structure Data where
  insights : List Insight
  contrarian_views : List Insight
  ai_views : List Report
  custom : List Insight
deriving DecidableEq

/-- Line 547: `item["insight"] = item.get("view", "")` before generating from a
contrarian view. -/
def withView (item : Insight) : Insight :=
  ⟨some (item.view.getD []), item.view, item.prediction, item.title, item.categories,
    item.content, item.text⟩

/-- Line 550: `c["type"] = "contrarian"`, overwriting the type of an already
constructed card. -/
def setTypeContrarian (c : Card) : Card :=
  ⟨"contrarian".data, c.content, c.expanded, c.tickers, c.source, c.source_title, c.categories⟩

/-- Lines 546-551: one contrarian-batch item on the rule path. -/
def contrarianCards (o : SetOrder) (item : Insight) : List Card :=
  (generate_card_rules o (withView item)).map setTypeContrarian

/-- Lines 555-559: one AI report on the rule path — at most 2 key views, each
turned into a fresh record with categories `["AI/Technology"]`. -/
def reportCards (o : SetOrder) (r : Report) : List Card :=
  (r.key_views.take 2).flatMap fun view =>
    generate_card_rules o ⟨some view, none, none, r.title, some ["AI/Technology".data], none, none⟩

/-- Lines 564-571: one custom item — map a `content` or `text` field onto
`insight` when absent, then generate only when an `insight` is present. -/
def customCards (o : SetOrder) (item : Insight) : List Card :=
  let i1 := if item.insight = none && item.content ≠ none then
      ⟨item.content, item.view, item.prediction, item.title, item.categories, item.content,
        item.text⟩
    else item
  let i2 := if i1.insight = none && i1.text ≠ none then
      ⟨i1.text, i1.view, i1.prediction, i1.title, i1.categories, i1.content, i1.text⟩
    else i1
  match i2.insight with
  | some _ => generate_card_rules o i2
  | none => []

/-- Lines 537-573: the full pre-deduplication card sequence of a rule-path run,
in the fixed batch-then-record order. -/
def mainCards (o : SetOrder) (d : Data) : List Card :=
  (d.insights.take 100).flatMap (generate_card_rules o) ++
    (d.contrarian_views.take 50).flatMap (contrarianCards o) ++
    (d.ai_views.take 30).flatMap (reportCards o) ++
    d.custom.flatMap (customCards o)

/-- The dedup key (line 579): the first 40 characters of the content. -/
def dedupKey (c : Card) : Str := c.content.take 40

/-- The dedup loop of lines 576-582, with the `seen` set modelled as the list
of keys inserted so far (only membership is ever used). -/
def dedupeAux (seen : List Str) : List Card → List Card
  | [] => []
  | c :: cs =>
    if dedupKey c ∈ seen then dedupeAux seen cs
    else c :: dedupeAux (dedupKey c :: seen) cs

/-- Lines 576-582: keep the first card of each 40-character content prefix. -/
def dedupe (l : List Card) : List Card := dedupeAux [] l

/-- The final output card sequence of a rule-path run (`unique`, line 577). -/
def mainUnique (o : SetOrder) (d : Data) : List Card := dedupe (mainCards o d)

/-- The caps that `main` applies to each batch: first 100 insights, first 50
contrarian views, first 30 reports with at most 2 key views each. -/
def capData (d : Data) : Data :=
  ⟨d.insights.take 100, d.contrarian_views.take 50,
    (d.ai_views.take 30).map (fun r => ⟨r.title, r.key_views.take 2⟩), d.custom⟩

/-- The allowed category vocabulary (line 103). -/
def VALID_CATEGORIES : List Str :=
  ["Valuation", "Moats", "Psychology", "Business Models", "Capital Allocation",
   "Cycles", "Data"].map String.data

/-- One card dict of the parsed external generation response (line 97 shape):
`content` is `""` when the key is absent or empty (both are skipped by the
truthiness test of line 333). -/
structure AiCard where
  type : Option Str
  content : Str
  tickers : List Str
  categories : List Str
deriving DecidableEq, Repr

/-- The outcome of the external generation call of `generate_card_ai`,
summarised at its boundary: no client configured; the call raised or no JSON
array/object could be extracted from the response; or a parsed list of card
dicts. -/
inductive AiResult where
  | unavailable : AiResult
  | failed : AiResult
  | parsed : List AiCard → AiResult
deriving DecidableEq

/-- The validation loop of `generate_card_ai` (lines 331-361): keep cards with
truthy content, strip and capitalize it, require length > 30, validate
categories against the vocabulary with `Psychology` as fallback, default the
type to `lesson`, and attach expanded content from `generate_expanded_content`
(whose own external call outcome is `ext2`, taken uniform across the batch). -/
def aiValidate (ext2 : ExtCall) (title : Str) : List AiCard → List Card
  | [] => []
  | a :: rest =>
    if a.content ≠ [] then
      let c := capFirst (strip a.content)
      if 30 < c.length then
        let card_cats0 := a.categories.filter (fun cat => VALID_CATEGORIES.contains cat)
        let card_cats := if card_cats0 = [] then ["Psychology".data] else card_cats0
        let cat := card_cats.headD "Psychology".data
        let card_type := a.type.getD "lesson".data
        ⟨card_type, c, generate_expanded_content ext2 c cat card_type [], a.tickers,
          "bernstein".data, title, card_cats⟩ :: aiValidate ext2 title rest
      else aiValidate ext2 title rest
    else aiValidate ext2 title rest

/-- `generate_card_ai` (lines 285-367) with the external call modelled by its
outcome: fall back to the rule path when no client is configured, when the
call raises, when no JSON can be extracted, or when validation keeps nothing;
return `[]` when the cleaned content is shorter than 30. -/
def generate_card_ai (o : SetOrder) (ai : AiResult) (ext2 : ExtCall) (ins : Insight) :
    List Card :=
  match ai with
  | .unavailable => generate_card_rules o ins
  | .failed =>
    let content := clean_text (rawOf ins)
    if content.length < 30 then [] else generate_card_rules o ins
  | .parsed cards =>
    let content := clean_text (rawOf ins)
    if content.length < 30 then []
    else
      let valid := aiValidate ext2 ins.title cards
      if valid = [] then generate_card_rules o ins else valid

/-- The contrarian batch stage of `main` (lines 546-551) for an arbitrary
generator `gen` (line 535 picks the generator by the `--ai` flag): rewrite the
record, generate, then overwrite every resulting type with `contrarian`. -/
def contrarianStage (gen : Insight → List Card) (item : Insight) : List Card :=
  (gen (withView item)).map setTypeContrarian

/-- A concrete `ValidOrder`: deduplication in Mathlib order, standing for one
particular run of CPython set enumeration. -/
def dedupOrder : SetOrder := fun xs => xs.dedup

/-- A second concrete `ValidOrder` (another possible run). -/
def dedupOrderRev : SetOrder := fun xs => xs.dedup.reverse

/-- The Ferrari scenario record of the specification (its §8 test scenario). -/
def ferrariInsight : Insight :=
  ⟨some "Ferrari trades at nearly 2x the luxury sector multiple. Their brand lets them raise prices 8-10% annually without killing demand. Pricing power is the moat.".data,
   none, none, "Ferrari Pricing Power".data, none, none, none⟩

/-- A record whose text contains the classifier keyword `consensus`. -/
def consensusInsight : Insight :=
  ⟨some "The consensus view on semiconductor margins understates how durable leading-edge pricing has become across the industry.".data,
   none, none, "Semis".data, none, none, none⟩

/-- A concrete card for the deduplication claims. -/
def c2a : Card :=
  ⟨"insight".data, "Margins expanded for the tenth consecutive quarter.".data,
   "expanded text".data, [], "bernstein".data, "Report A".data, ["Data".data]⟩

/-- A second card sharing the first 40 content characters with `c2a`. -/
def c2b : Card :=
  ⟨"stat".data, "Margins expanded for the tenth consecutive quarter. Up 40%.".data,
   "other expanded".data, [], "bernstein".data, "Report B".data, ["Data".data]⟩

/-- The content of one parsed external-response card dict. -/
def c5AiContent : Str :=
  "pricing power compounds when brands can raise prices without losing volume".data

/-- One parsed external-response card dict with an explicit non-contrarian type. -/
def c5Ai : AiCard := ⟨some "lesson".data, c5AiContent, [], ["Moats".data]⟩

/-- A contrarian-batch record (its `view` is copied onto `insight` by `main`). -/
def c5Item : Insight :=
  ⟨none, some "Everyone thinks moats are permanent but most erode within a decade".data,
   none, "Moat Duration".data, none, none, none⟩

/-- The card the AI path builds from `c5Ai` before `main` rewrites its type. -/
def c5Card : Card :=
  ⟨"lesson".data, capFirst (strip c5AiContent),
   generate_expanded_content ExtCall.raised (capFirst (strip c5AiContent)) "Moats".data
     "lesson".data [],
   [], "bernstein".data, c5Item.title, ["Moats".data]⟩

/-- A 302-character single-sentence body (no sentence punctuation, no hedge
words, no boilerplate), on which every normalisation stage is the identity. -/
def bodyA : Str :=
  "Semiconductor equipment lead times stretched from twelve weeks to over fifty weeks during the last cycle while order books kept growing and customers double ordered to secure allocation which made reported backlog numbers unreliable as a demand signal for the following two fiscal years of the downturn".data

/-- A record whose composed card text exceeds 280 characters with no `. `
boundary to cut at. -/
def ins6a : Insight := ⟨some bodyA, none, none, "Lead Times".data, none, none, none⟩

/-- A record whose composed card text contains a `. ` boundary. -/
def ins6b : Insight :=
  ⟨some "Cyclical peaks get misjudged by most market participants quite often. Operating margins revert toward their long run mean over extended horizons.".data,
   none, none, "Cycles".data, none, none, none⟩

/-- A parsed external-response card dict with no type key (defaulted to
`lesson`). -/
def c9Ai : AiCard :=
  ⟨none, "volume growth persists when switching costs anchor existing customers".data,
   [], ["Cycles".data]⟩

/-- A record for the AI path whose insight text is long enough to proceed. -/
def c9Item : Insight :=
  ⟨some "pricing discipline broke down when the third competitor entered the market".data,
   none, none, "Discipline".data, none, none, none⟩

/-- The card the AI path builds from `c9Ai` when the deep-dive call returned a
response of at most 100 characters (the template fallback is used). -/
def c9Card : Card :=
  ⟨"lesson".data, capFirst (strip c9Ai.content),
   generate_expanded_content (ExtCall.returned "short".data) (capFirst (strip c9Ai.content))
     "Cycles".data "lesson".data [],
   [], "bernstein".data, c9Item.title, ["Cycles".data]⟩

/-- Whitespace normal form — the image of `collapseWs`: every whitespace
character is a plain space and no two adjacent characters are both
whitespace. -/
def wsOk : Str → Bool
  | [] => true
  | [c] => !isSpc c || c = ' '
  | c :: d :: r => (!isSpc c || c = ' ') && !(isSpc c && isSpc d) && wsOk (d :: r)

/-- The regex family a string returned by `extract_numbers` belongs to, read
off its shape: percentages end in `%`, currency amounts start with `$`,
multiples end in `x`/`X`, bare billion/million amounts are everything else. -/
def numberFamilyRank (m : Str) : Nat :=
  if m.getLastD ' ' = '%' then 0
  else if m.headD ' ' = '$' then 1
  else if m.getLastD ' ' = 'x' || m.getLastD ' ' = 'X' then 2
  else 3

/-! ### Generic lemmas about the text utilities -/

theorem trimRight_sublist : ∀ s : Str, List.Sublist (trimRight s) s
  | [] => List.Sublist.refl []
  | c :: r => by
    simp only [trimRight]
    split
    · exact List.nil_sublist _
    · exact (trimRight_sublist r).cons₂ c

theorem strip_sublist (s : Str) : List.Sublist (strip s) s :=
  (trimRight_sublist _).trans (List.dropWhile_suffix isSpc).sublist

theorem scanSubP_sublist (f : Option Char → Str → Option (Char × Str))
    (hf : ∀ prev x out, f prev x = some out → out.2 <:+ x) :
    ∀ (n : Nat) (prev : Option Char) (l : Str), List.Sublist (scanSubP f n prev l) l := by
  intro n
  induction n with
  | zero => intro prev l; exact List.Sublist.refl l
  | succ n ih =>
    intro prev l
    match l with
    | [] => exact List.Sublist.refl []
    | c :: cs =>
      simp only [scanSubP]
      split
      · next p rest heq =>
        exact (ih (some p) rest).trans (hf prev (c :: cs) (p, rest) heq).sublist
      · exact (ih (some c) cs).cons₂ c

theorem tryWordB_suffix (w : Str) (prev : Option Char) (l : Str) (out : Char × Str)
    (h : tryWordB w prev l = some out) : out.2 <:+ l := by
  unfold tryWordB at h
  split at h
  · cases hm : matchCI w l with
    | none => rw [hm] at h; exact absurd h (by simp)
    | some mr =>
      rw [hm] at h
      obtain ⟨m, rest⟩ := mr
      have hrest : rest <:+ l := by
        unfold matchCI at hm
        split at hm
        · cases hm; exact List.drop_suffix _ _
        · exact absurd hm (by simp)
      dsimp only at h
      split at h
      · cases hg : m.getLast? with
        | none => rw [hg] at h; exact absurd h (by simp)
        | some c =>
          rw [hg] at h
          cases h
          exact hrest
      · exact absurd h (by simp)
  · exact absurd h (by simp)

theorem subHedge_sublist (w : String) (s : Str) : List.Sublist (subHedge w s) s :=
  scanSubP_sublist _ (tryWordB_suffix w.data) s.length none s

theorem countP_collapseWs_le (p : Char → Bool) (hp : p ' ' = false) :
    ∀ t : Str, List.countP p (collapseWs t) ≤ List.countP p t
  | [] => Nat.le_refl _
  | [c] => by
    simp only [collapseWs]
    by_cases h : isSpc c = true
    · simp [h, List.countP_cons, hp]
    · simp [h]
  | c :: d :: r => by
    have hrec := countP_collapseWs_le p hp (d :: r)
    simp only [collapseWs]
    by_cases h : (isSpc c && isSpc d) = true
    · rw [if_pos h, List.countP_cons]
      omega
    · rw [if_neg h, List.countP_cons, List.countP_cons]
      by_cases hc : isSpc c = true
      · rw [if_pos hc]
        simp only [hp, if_false, Bool.false_eq_true]
        omega
      · rw [if_neg hc]
        omega

theorem isPunctC_upChar (c : Char) : isPunctC (upChar c) = isPunctC c := by
  unfold upChar
  by_cases h1 : c = 'a'
  · subst h1; rfl
  rw [if_neg h1]
  by_cases h2 : c = 'b'
  · subst h2; rfl
  rw [if_neg h2]
  by_cases h3 : c = 'c'
  · subst h3; rfl
  rw [if_neg h3]
  by_cases h4 : c = 'd'
  · subst h4; rfl
  rw [if_neg h4]
  by_cases h5 : c = 'e'
  · subst h5; rfl
  rw [if_neg h5]
  by_cases h6 : c = 'f'
  · subst h6; rfl
  rw [if_neg h6]
  by_cases h7 : c = 'g'
  · subst h7; rfl
  rw [if_neg h7]
  by_cases h8 : c = 'h'
  · subst h8; rfl
  rw [if_neg h8]
  by_cases h9 : c = 'i'
  · subst h9; rfl
  rw [if_neg h9]
  by_cases h10 : c = 'j'
  · subst h10; rfl
  rw [if_neg h10]
  by_cases h11 : c = 'k'
  · subst h11; rfl
  rw [if_neg h11]
  by_cases h12 : c = 'l'
  · subst h12; rfl
  rw [if_neg h12]
  by_cases h13 : c = 'm'
  · subst h13; rfl
  rw [if_neg h13]
  by_cases h14 : c = 'n'
  · subst h14; rfl
  rw [if_neg h14]
  by_cases h15 : c = 'o'
  · subst h15; rfl
  rw [if_neg h15]
  by_cases h16 : c = 'p'
  · subst h16; rfl
  rw [if_neg h16]
  by_cases h17 : c = 'q'
  · subst h17; rfl
  rw [if_neg h17]
  by_cases h18 : c = 'r'
  · subst h18; rfl
  rw [if_neg h18]
  by_cases h19 : c = 's'
  · subst h19; rfl
  rw [if_neg h19]
  by_cases h20 : c = 't'
  · subst h20; rfl
  rw [if_neg h20]
  by_cases h21 : c = 'u'
  · subst h21; rfl
  rw [if_neg h21]
  by_cases h22 : c = 'v'
  · subst h22; rfl
  rw [if_neg h22]
  by_cases h23 : c = 'w'
  · subst h23; rfl
  rw [if_neg h23]
  by_cases h24 : c = 'x'
  · subst h24; rfl
  rw [if_neg h24]
  by_cases h25 : c = 'y'
  · subst h25; rfl
  rw [if_neg h25]
  by_cases h26 : c = 'z'
  · subst h26; rfl
  rw [if_neg h26]

theorem countP_capFirst (t : Str) :
    List.countP isPunctC (capFirst t) = List.countP isPunctC t := by
  cases t with
  | nil => rfl
  | cons c r => simp [capFirst, List.countP_cons, isPunctC_upChar]

theorem startsWith_append_of (p x y : Str) (h : startsWith p x = true) :
    startsWith p (x ++ y) = true := by
  induction p generalizing x with
  | nil => rfl
  | cons a ps ih =>
    cases x with
    | nil => simp [startsWith] at h
    | cons c cs =>
      simp only [startsWith, Bool.and_eq_true] at h ⊢
      exact ⟨h.1, ih cs h.2⟩

theorem startsWith_nil_right (p : Str) (h : startsWith p [] = true) : p = [] := by
  cases p with
  | nil => rfl
  | cons a ps => simp [startsWith] at h

theorem containsStr_eq_false_iff (p s : Str) :
    containsStr p s = false ↔ ∀ i, startsWith p (s.drop i) = false := by
  induction s with
  | nil =>
    simp only [containsStr, List.drop_nil]
    constructor
    · intro h i; exact h
    · intro h; exact h 0
  | cons c cs ih =>
    simp only [containsStr, Bool.or_eq_false_iff, ih]
    constructor
    · rintro ⟨h0, h1⟩ i
      cases i with
      | zero => exact h0
      | succ j => exact h1 j
    · intro h
      exact ⟨h 0, fun j => h (j + 1)⟩

theorem contains_of_contains_drop (p s : Str) (k : Nat)
    (h : containsStr p (s.drop k) = true) : containsStr p s = true := by
  by_contra hc
  rw [Bool.not_eq_true] at hc
  rw [containsStr_eq_false_iff] at hc
  have : containsStr p (s.drop k) = false := by
    rw [containsStr_eq_false_iff]
    intro i
    rw [List.drop_drop]
    exact hc (k + i)
  rw [this] at h
  exact Bool.false_ne_true h

theorem contains_of_contains_prefixPart (p u t : Str) (hp : p ≠ [])
    (h : containsStr p u = true) : containsStr p (u ++ t) = true := by
  by_contra hc
  rw [Bool.not_eq_true, containsStr_eq_false_iff] at hc
  have h2 : containsStr p u = false := by
    rw [containsStr_eq_false_iff]
    intro i
    by_cases hi : i ≤ u.length
    · have := hc i
      rw [List.drop_append_of_le_length hi] at this
      by_contra hx
      rw [Bool.not_eq_false] at hx
      rw [startsWith_append_of p _ t hx] at this
      simp at this
    · have : u.drop i = [] := by
        apply List.drop_eq_nil_of_le
        omega
      rw [this]
      cases p with
      | nil => exact absurd rfl hp
      | cons a ps => rfl
  rw [h2] at h
  exact Bool.false_ne_true h

theorem trimRight_eq_take : ∀ s : Str, ∃ m, trimRight s = s.take m
  | [] => ⟨0, rfl⟩
  | c :: r => by
    obtain ⟨m, hm⟩ := trimRight_eq_take r
    simp only [trimRight]
    split
    · exact ⟨0, rfl⟩
    · exact ⟨m + 1, by simp [List.take_succ_cons, hm]⟩

theorem contains_of_contains_strip (p s : Str) (hp : p ≠ [])
    (h : containsStr p (strip s) = true) : containsStr p s = true := by
  unfold strip at h
  obtain ⟨m, hm⟩ := trimRight_eq_take (s.dropWhile isSpc)
  rw [hm] at h
  have h2 : containsStr p (s.dropWhile isSpc) = true := by
    have := contains_of_contains_prefixPart p ((s.dropWhile isSpc).take m)
      ((s.dropWhile isSpc).drop m) hp h
    rwa [List.take_append_drop] at this
  obtain ⟨pre, hpre⟩ := (List.dropWhile_suffix isSpc : List.dropWhile isSpc s <:+ s)
  have h3 : containsStr p ((pre ++ s.dropWhile isSpc).drop pre.length) = true := by
    rw [List.drop_left]; exact h2
  rw [hpre] at h3
  exact contains_of_contains_drop p s pre.length h3

/-! ### Punctuation structure: no composed card text can contain two
sentence pieces, which is why the validator rejects everything. -/

theorem splitPunct_ne_nil : ∀ t : Str, splitPunct t ≠ []
  | [] => by simp [splitPunct]
  | c :: r => by
    simp only [splitPunct]
    split
    · simp
    · split
      · simp
      · simp

theorem mem_splitPunct_countP : ∀ (t : Str) (p : Str), p ∈ splitPunct t →
    List.countP isPunctC p = 0
  | [], p => by
    intro h
    simp only [splitPunct, List.mem_singleton] at h
    simp [h]
  | c :: r, p => by
    intro h
    simp only [splitPunct] at h
    split at h
    · rcases List.mem_cons.mp h with h1 | h1
      · simp [h1]
      · exact mem_splitPunct_countP r p h1
    · rename_i hc
      cases hq : splitPunct r with
      | nil => exact absurd hq (splitPunct_ne_nil r)
      | cons q qs =>
        rw [hq] at h
        rcases List.mem_cons.mp h with h1 | h1
        · subst h1
          have hq0 : List.countP isPunctC q = 0 :=
            mem_splitPunct_countP r q (hq ▸ List.mem_cons_self q qs)
          simp [List.countP_cons, hq0, hc]
        · exact mem_splitPunct_countP r p (hq ▸ List.mem_cons.mpr (Or.inr h1))

theorem endsPunct_exists (t : Str) (h : endsPunct t = true) :
    ∃ Z q, t = Z ++ [q] ∧ isPunctC q = true := by
  unfold endsPunct endsWith at h
  have key : ∀ q : Char, (if ([q] : Str).length ≤ t.length then
      decide (t.drop (t.length - 1) = [q]) else false) = true → ∃ Z, t = Z ++ [q] := by
    intro q hq
    split at hq
    · refine ⟨t.take (t.length - 1), ?_⟩
      have := List.take_append_drop (t.length - 1) t
      rw [of_decide_eq_true hq] at this
      exact this.symm
    · exact absurd hq (by simp)
  simp only [Bool.or_eq_true] at h
  rcases h with h | h
  · rcases h with h | h
    · obtain ⟨Z, hZ⟩ := key '.' h
      exact ⟨Z, '.', hZ, by decide⟩
    · obtain ⟨Z, hZ⟩ := key '!' h
      exact ⟨Z, '!', hZ, by decide⟩
  · obtain ⟨Z, hZ⟩ := key '?' h
    exact ⟨Z, '?', hZ, by decide⟩

theorem splitPunct_append_punct : ∀ (Z : Str), (∀ c ∈ Z, isPunctC c = false) →
    ∀ q, isPunctC q = true → splitPunct (Z ++ [q]) = [Z, []]
  | [], _, q, hq => by simp [splitPunct, hq]
  | c :: Z, hZ, q, hq => by
    have hc : isPunctC c = false := hZ c (List.mem_cons_self c Z)
    have ih := splitPunct_append_punct Z (fun x hx => hZ x (List.mem_cons.mpr (Or.inr hx))) q hq
    simp only [List.cons_append, splitPunct, hc, Bool.false_eq_true, if_false, List.append_eq]
    rw [ih]

theorem sentences_le_one_of_count (t : Str) (hc : List.countP isPunctC t ≤ 1)
    (he : endsPunct t = true) : (sentencesOf t).length ≤ 1 := by
  obtain ⟨Z, q, ht, hq⟩ := endsPunct_exists t he
  have hZ : ∀ c ∈ Z, isPunctC c = false := by
    have h0 : List.countP isPunctC Z = 0 := by
      rw [ht, List.countP_append] at hc
      have h1 : List.countP isPunctC [q] = 1 := by simp [List.countP_cons, hq]
      omega
    intro c hcZ
    have := List.countP_eq_zero.mp h0 c hcZ
    exact Bool.not_eq_true _ ▸ this
  rw [ht]
  unfold sentencesOf
  rw [splitPunct_append_punct Z hZ q hq]
  have hnil : strip ([] : Str) = [] := rfl
  simp only [List.map_cons, List.map_nil, hnil]
  by_cases h : strip Z = [] <;> simp [List.filter_cons, h]

theorem is_complete_card_false_of_count (t0 : Str)
    (hc : List.countP isPunctC (strip t0) ≤ 1) : is_complete_card t0 = false := by
  unfold is_complete_card
  dsimp only
  split_ifs with h1 h2 h3 h4 h5 h6
  · rfl
  · rfl
  · rfl
  · rfl
  · rfl
  · rfl
  · exfalso
    have h1x : endsPunct (strip t0) = true := by
      cases h : endsPunct (strip t0)
      · exact absurd (by rw [h]; rfl) h1
      · rfl
    have := sentences_le_one_of_count (strip t0) hc h1x
    omega

theorem stripPat_suffix (w : String) (s : Str) : stripPat w s <:+ s := by
  unfold stripPat
  split
  · exact (List.dropWhile_suffix isSpc).trans (List.drop_suffix _ _)
  · exact List.suffix_refl s

theorem stripPatComma_suffix (w : String) (s : Str) : stripPatComma w s <:+ s := by
  unfold stripPatComma
  split
  · refine List.IsSuffix.trans ?_ (List.drop_suffix w.data.length s)
    refine (List.dropWhile_suffix isSpc).trans ?_
    split
    · next r heq => rw [heq]; exact List.suffix_cons ',' r
    · exact List.suffix_refl _
  · exact List.suffix_refl s

theorem stripKeyPat_suffix (s : Str) : stripKeyPat s <:+ s := by
  unfold stripKeyPat
  split_ifs <;>
    first
      | exact (List.dropWhile_suffix isSpc).trans (List.drop_suffix _ _)
      | exact List.suffix_refl s

theorem countP_clean_prose_le (t : Str) :
    List.countP isPunctC (clean_prose t) ≤ List.countP isPunctC t := by
  unfold clean_prose
  dsimp only
  rw [countP_capFirst]
  refine le_trans ((strip_sublist _).countP_le _) ?_
  refine le_trans (countP_collapseWs_le _ (by decide) _) ?_
  refine le_trans ((stripKeyPat_suffix _).sublist.countP_le _) ?_
  refine le_trans ((stripPat_suffix _ _).sublist.countP_le _) ?_
  refine le_trans ((stripPatComma_suffix _ _).sublist.countP_le _) ?_
  refine le_trans ((stripPatComma_suffix _ _).sublist.countP_le _) ?_
  refine le_trans ((stripPatComma_suffix _ _).sublist.countP_le _) ?_
  refine le_trans ((stripPat_suffix _ _).sublist.countP_le _) ?_
  refine le_trans ((stripPat_suffix _ _).sublist.countP_le _) ?_
  refine le_trans ((stripPat_suffix _ _).sublist.countP_le _) ?_
  refine le_trans ((stripPat_suffix _ _).sublist.countP_le _) ?_
  refine le_trans ((stripPat_suffix _ _).sublist.countP_le _) ?_
  refine le_trans ((stripPat_suffix _ _).sublist.countP_le _) ?_
  refine le_trans ((stripPat_suffix _ _).sublist.countP_le _) ?_
  exact (stripPat_suffix _ _).sublist.countP_le _

theorem countP_remove_hedging_le (t : Str) :
    List.countP isPunctC (remove_hedging t) ≤ List.countP isPunctC t := by
  unfold remove_hedging
  dsimp only
  refine le_trans ((strip_sublist _).countP_le _) ?_
  refine le_trans (countP_collapseWs_le _ (by decide) _) ?_
  refine le_trans ((subHedge_sublist _ _).countP_le _) ?_
  refine le_trans ((subHedge_sublist _ _).countP_le _) ?_
  refine le_trans ((subHedge_sublist _ _).countP_le _) ?_
  refine le_trans ((subHedge_sublist _ _).countP_le _) ?_
  refine le_trans ((subHedge_sublist _ _).countP_le _) ?_
  refine le_trans ((subHedge_sublist _ _).countP_le _) ?_
  refine le_trans ((subHedge_sublist _ _).countP_le _) ?_
  refine le_trans ((subHedge_sublist _ _).countP_le _) ?_
  refine le_trans ((subHedge_sublist _ _).countP_le _) ?_
  refine le_trans ((subHedge_sublist _ _).countP_le _) ?_
  refine le_trans ((subHedge_sublist _ _).countP_le _) ?_
  refine le_trans ((subHedge_sublist _ _).countP_le _) ?_
  exact (subHedge_sublist _ _).countP_le _

theorem mem_sentencesSplit_countP (content s : Str) (h : s ∈ sentencesSplit content) :
    List.countP isPunctC s = 0 := by
  unfold sentencesSplit at h
  rw [List.mem_filter] at h
  obtain ⟨hmem, _⟩ := h
  rw [List.mem_map] at hmem
  obtain ⟨q, hq, rfl⟩ := hmem
  have h0 := mem_splitPunct_countP content q hq
  have h1 := (strip_sublist q).countP_le isPunctC
  omega

theorem countP_getD_find (L : List Str) (pred : Str → Bool)
    (h : ∀ s ∈ L, List.countP isPunctC s = 0) :
    List.countP isPunctC ((L.find? pred).getD (L.headD [])) = 0 := by
  cases hf : L.find? pred with
  | some s => simpa using h s (List.mem_of_find?_eq_some hf)
  | none =>
    cases L with
    | nil => simp
    | cons a as => simpa using h a (List.mem_cons_self a as)

theorem countP_getD_nil (L : List Str) (pred : Str → Bool)
    (h : ∀ s ∈ L, List.countP isPunctC s = 0) :
    List.countP isPunctC ((L.find? pred).getD []) = 0 := by
  cases hf : L.find? pred with
  | some s => simpa using h s (List.mem_of_find?_eq_some hf)
  | none => simp

theorem countP_bestOf (ins : Insight) : List.countP isPunctC (bestOf ins) = 0 := by
  unfold bestOf
  exact countP_getD_find _ _ (fun s hs => mem_sentencesSplit_countP _ s hs)

theorem countP_contextOf (ins : Insight) : List.countP isPunctC (contextOf ins) = 0 := by
  unfold contextOf
  exact countP_getD_nil _ _ (fun s hs => mem_sentencesSplit_countP _ s hs)

theorem countP_joinedOf_le_one (ins : Insight) :
    List.countP isPunctC (joinedOf ins) ≤ 1 := by
  unfold joinedOf
  split
  · rw [countP_bestOf]
    omega
  · rw [List.countP_append, List.countP_append, countP_bestOf, countP_contextOf]
    have hj : List.countP isPunctC ". ".data = 1 := by decide
    omega

theorem countP_composedOf_le_one (ins : Insight) :
    List.countP isPunctC (composedOf ins) ≤ 1 :=
  le_trans (countP_clean_prose_le _)
    (le_trans (countP_remove_hedging_le _) (countP_joinedOf_le_one ins))

theorem firstDotSplit_sublist : ∀ t : Str, List.Sublist (firstDotSplit t) t
  | [] => List.Sublist.refl _
  | c :: cs => by
    simp only [firstDotSplit]
    split
    · exact List.nil_sublist _
    · exact (firstDotSplit_sublist cs).cons₂ c

theorem firstDotSplit_eq_self (t : Str) (h : containsStr ". ".data t = false) :
    firstDotSplit t = t := by
  induction t with
  | nil => rfl
  | cons c cs ih =>
    simp only [containsStr, Bool.or_eq_false_iff] at h
    obtain ⟨h1, h2⟩ := h
    simp only [firstDotSplit, h1, Bool.false_eq_true, if_false]
    rw [ih h2]

theorem countP_firstDotSplit_succ_le (t : Str) (h : containsStr ". ".data t = true) :
    List.countP isPunctC (firstDotSplit t) + 1 ≤ List.countP isPunctC t := by
  induction t with
  | nil => simp [containsStr, startsWith] at h
  | cons c cs ih =>
    by_cases h1 : startsWith ". ".data (c :: cs) = true
    · have hc : c = '.' := by
        have : (('.' = c) && startsWith [' '] cs) = true := h1
        simp only [Bool.and_eq_true, decide_eq_true_eq] at this
        exact this.1.symm
      subst hc
      simp only [firstDotSplit, h1, if_true, List.countP_cons, List.countP_nil]
      have : isPunctC '.' = true := by decide
      simp [this]
    · have h2 : containsStr ". ".data cs = true := by
        simp only [containsStr, Bool.or_eq_true] at h
        rcases h with h | h
        · exact absurd h h1
        · exact h
      have hx : startsWith ". ".data (c :: cs) = false := by
        rw [Bool.not_eq_true] at h1; exact h1
      simp only [firstDotSplit, hx, Bool.false_eq_true, if_false, List.countP_cons]
      have := ih h2
      omega

theorem ct2_drop (ct : Str) :
    ∃ k, (if startsOrphan ct then orphanFix ct else ct) = ct.drop k := by
  by_cases h : startsOrphan ct = true
  · rw [if_pos h]
    unfold orphanFix
    split
    · cases hf : (ct.drop 5).findIdx? (fun c => c = ' ') with
      | some i => exact ⟨5 + i + 1, rfl⟩
      | none => exact ⟨0, rfl⟩
    · exact ⟨0, (List.drop_zero ct).symm⟩
  · rw [if_neg h]
    exact ⟨0, (List.drop_zero ct).symm⟩

theorem buildCard_eq_nil (o : SetOrder) (raw content : Str) (numbers : List Str)
    (title ct : Str) (h : List.countP isPunctC ct ≤ 1) :
    buildCard o raw content numbers title ct = [] := by
  unfold buildCard
  dsimp only
  by_cases h1 : ct.length < 30
  · rw [if_pos h1]
  · rw [if_neg h1]
    obtain ⟨k, hk⟩ := ct2_drop ct
    have hcount : List.countP isPunctC (if startsOrphan ct then orphanFix ct else ct) ≤ 1 := by
      rw [hk]
      exact le_trans ((List.drop_suffix k ct).sublist.countP_le _) h
    have hstrip :
        List.countP isPunctC (strip (if startsOrphan ct then orphanFix ct else ct)) ≤ 1 :=
      le_trans ((strip_sublist _).countP_le _) hcount
    have hfalse := is_complete_card_false_of_count _ hstrip
    rw [hfalse]
    rfl

/-- The central fact about the rule path: `generate_card_rules` emits no card,
for any input record and any set-enumeration order.  The composed card text
contains at most one terminal punctuation character (the `". "` junction the
composer inserts), so `is_complete_card` can never see both terminal
punctuation and two sentence pieces; the truncation branch appends a period
but either leaves at most one nonempty sentence piece or exceeds the length
ceiling again. -/
theorem generate_card_rules_eq_nil (o : SetOrder) (ins : Insight) :
    generate_card_rules o ins = [] := by
  unfold generate_card_rules
  dsimp only
  split_ifs with h1 h2 h3 h4
  · rfl
  · rfl
  · rfl
  · by_cases hcont : containsStr ". ".data (composedOf ins) = true
    · apply buildCard_eq_nil
      have hfd := countP_firstDotSplit_succ_le _ hcont
      have h5 := countP_composedOf_le_one ins
      rw [List.countP_append]
      have hdot : List.countP isPunctC ['.'] = 1 := by decide
      omega
    · exfalso
      rw [Bool.not_eq_true] at hcont
      rw [firstDotSplit_eq_self _ hcont] at h4
      rw [List.length_append] at h4
      simp only [List.length_cons, List.length_nil] at h4
      omega
  · apply buildCard_eq_nil
    exact countP_composedOf_le_one ins

theorem contrarianCards_eq_nil (o : SetOrder) (item : Insight) :
    contrarianCards o item = [] := by
  unfold contrarianCards
  rw [generate_card_rules_eq_nil]
  rfl

theorem reportCards_eq_nil (o : SetOrder) (r : Report) : reportCards o r = [] := by
  unfold reportCards
  apply List.flatMap_eq_nil_iff.mpr
  intro v _
  exact generate_card_rules_eq_nil o _

theorem customCards_eq_nil (o : SetOrder) (item : Insight) : customCards o item = [] := by
  unfold customCards
  dsimp only
  split
  · exact generate_card_rules_eq_nil o _
  · rfl

theorem mainCards_eq_nil (o : SetOrder) (d : Data) : mainCards o d = [] := by
  unfold mainCards
  rw [List.flatMap_eq_nil_iff.mpr fun x _ => generate_card_rules_eq_nil o x,
    List.flatMap_eq_nil_iff.mpr fun x _ => contrarianCards_eq_nil o x,
    List.flatMap_eq_nil_iff.mpr fun x _ => reportCards_eq_nil o x,
    List.flatMap_eq_nil_iff.mpr fun x _ => customCards_eq_nil o x]
  rfl

theorem mainUnique_eq_nil (o : SetOrder) (d : Data) : mainUnique o d = [] := by
  unfold mainUnique
  rw [mainCards_eq_nil]
  rfl

/-! ### Idempotence machinery for the normalizer (C4) -/

theorem scanSub_id (f : Str → Option Str) :
    ∀ (s : Str), (∀ i, f (s.drop i) = none) → ∀ n, scanSub f n s = s
  | [], _, 0 => rfl
  | [], _, _ + 1 => rfl
  | _ :: _, _, 0 => rfl
  | c :: cs, h, n + 1 => by
    have h0 : f (c :: cs) = none := h 0
    simp only [scanSub, h0]
    rw [scanSub_id f cs (fun i => h (i + 1)) n]

theorem tryExhibit_none (l : Str) (h : startsWith "Exhibit ".data l = false) :
    tryExhibit l = none := by simp [tryExhibit, h]

theorem tryExclusive_none (l : Str)
    (h : startsWith "For the exclusive use of".data l = false) : tryExclusive l = none := by
  simp [tryExclusive, h]

theorem trySource_none (l : Str) (h : startsWith "Source:".data l = false) :
    trySource l = none := by simp [trySource, h]

theorem head_collapseWs (d : Char) (r : Str) (hd : isSpc d = false) :
    ∃ u, collapseWs (d :: r) = d :: u := by
  cases r with
  | nil => exact ⟨[], by simp [collapseWs, hd]⟩
  | cons e r' =>
    have hcond : (isSpc d && isSpc e) = false := by rw [hd]; rfl
    refine ⟨collapseWs (e :: r'), ?_⟩
    simp [collapseWs, hcond, hd]

theorem wsOk_head (c : Char) (r : Str) (h : wsOk (c :: r) = true) :
    (!isSpc c || c = ' ') = true := by
  cases r with
  | nil => exact h
  | cons d r' =>
    simp only [wsOk, Bool.and_eq_true] at h
    exact h.1.1

theorem wsOk_adj (c d : Char) (r : Str) (h : wsOk (c :: d :: r) = true) :
    (isSpc c && isSpc d) = false := by
  simp only [wsOk, Bool.and_eq_true] at h
  have := h.1.2
  cases hx : (isSpc c && isSpc d)
  · rfl
  · rw [hx] at this; simp at this

theorem wsOk_tail (c : Char) (r : Str) (h : wsOk (c :: r) = true) : wsOk r = true := by
  cases r with
  | nil => rfl
  | cons d r' =>
    simp only [wsOk, Bool.and_eq_true] at h
    exact h.2

theorem wsOk_collapseWs : ∀ t : Str, wsOk (collapseWs t) = true
  | [] => rfl
  | [c] => by
    simp only [collapseWs]
    by_cases h : isSpc c = true <;> simp [h, wsOk]
  | c :: d :: r => by
    have ih := wsOk_collapseWs (d :: r)
    simp only [collapseWs]
    by_cases h : (isSpc c && isSpc d) = true
    · rw [if_pos h]; exact ih
    · rw [if_neg h]
      by_cases hc : isSpc c = true
      · have hd : isSpc d = false := by
          cases hdd : isSpc d
          · rfl
          · exact absurd (by rw [hc, hdd]; rfl) h
        obtain ⟨u, hu⟩ := head_collapseWs d r hd
        rw [if_pos hc, hu]
        rw [hu] at ih
        simp [wsOk, hd, ih]
      · rw [if_neg hc]
        rw [Bool.not_eq_true] at hc
        cases hx : collapseWs (d :: r) with
        | nil => simp [wsOk, hc]
        | cons f X =>
          rw [hx] at ih
          simp [wsOk, hc, ih]

theorem collapseWs_eq_self_of_wsOk : ∀ t : Str, wsOk t = true → collapseWs t = t
  | [] => fun _ => rfl
  | [c] => by
    intro h
    simp only [collapseWs]
    by_cases hc : isSpc c = true
    · have : c = ' ' := by
        simp only [wsOk, hc, Bool.not_true, Bool.false_or] at h
        exact of_decide_eq_true h
      rw [if_pos hc, this]
    · rw [if_neg hc]
  | c :: d :: r => by
    intro h
    have hadj := wsOk_adj c d r h
    have htl := wsOk_tail c (d :: r) h
    simp only [collapseWs]
    rw [if_neg (by rw [hadj]; simp)]
    rw [collapseWs_eq_self_of_wsOk (d :: r) htl]
    by_cases hc : isSpc c = true
    · have : c = ' ' := by
        have h1 := wsOk_head c (d :: r) h
        simp only [hc, Bool.not_true, Bool.false_or] at h1
        exact of_decide_eq_true h1
      rw [if_pos hc, this]
    · rw [if_neg hc]

theorem dropWhile_head_not : ∀ (s : Str) (c : Char) (cs : Str),
    s.dropWhile isSpc = c :: cs → isSpc c = false
  | [], c, cs => by intro h; simp at h
  | a :: r, c, cs => by
    intro h
    rw [List.dropWhile_cons] at h
    split at h
    · exact dropWhile_head_not r c cs h
    · next hn =>
      injection h with h1 h2
      subst h1
      cases hx : isSpc a
      · rfl
      · exact absurd hx hn

theorem dropWhile_strip (s : Str) : (strip s).dropWhile isSpc = strip s := by
  unfold strip
  cases hu : s.dropWhile isSpc with
  | nil => rfl
  | cons c u' =>
    have hc := dropWhile_head_not s c u' hu
    simp only [trimRight]
    split
    · rfl
    · rw [List.dropWhile_cons, if_neg (by rw [hc]; simp)]

theorem trimRight_idem : ∀ s : Str, trimRight (trimRight s) = trimRight s
  | [] => rfl
  | c :: r => by
    simp only [trimRight]
    split
    · rfl
    · next hcond =>
      simp only [trimRight, trimRight_idem r]
      rw [if_neg hcond]

theorem strip_idem (s : Str) : strip (strip s) = strip s := by
  conv_lhs => rw [strip, dropWhile_strip]
  rw [strip, trimRight_idem]

/-! ### Deduplication lemmas (C2, C5) -/

theorem dedupeAux_sublist : ∀ (l : List Card) (seen : List Str),
    List.Sublist (dedupeAux seen l) l
  | [], _ => List.Sublist.refl []
  | c :: cs, seen => by
    simp only [dedupeAux]
    split
    · exact (dedupeAux_sublist cs seen).cons c
    · exact (dedupeAux_sublist cs _).cons₂ c

theorem mem_dedupeAux_key_not_seen : ∀ (l : List Card) (seen : List Str) (c : Card),
    c ∈ dedupeAux seen l → dedupKey c ∉ seen
  | [], seen, c => by intro h; simp [dedupeAux] at h
  | a :: as, seen, c => by
    intro h
    simp only [dedupeAux] at h
    split at h
    · exact mem_dedupeAux_key_not_seen as seen c h
    · next hnot =>
      rcases List.mem_cons.mp h with h1 | h1
      · subst h1; exact hnot
      · have h2 := mem_dedupeAux_key_not_seen as _ c h1
        intro hmem
        exact h2 (List.mem_cons.mpr (Or.inr hmem))

theorem dedupeAux_pairwise : ∀ (l : List Card) (seen : List Str),
    (dedupeAux seen l).Pairwise (fun a b => dedupKey a ≠ dedupKey b)
  | [], _ => List.Pairwise.nil
  | a :: as, seen => by
    simp only [dedupeAux]
    split
    · exact dedupeAux_pairwise as seen
    · refine List.Pairwise.cons ?_ (dedupeAux_pairwise as _)
      intro b hb heq
      exact mem_dedupeAux_key_not_seen as _ b hb (heq ▸ List.mem_cons_self _ _)

theorem dedupeAux_first_mem : ∀ (l₁ : List Card) (x : Card) (l₂ : List Card) (seen : List Str),
    dedupKey x ∉ seen → (∀ y ∈ l₁, dedupKey y ≠ dedupKey x) →
    x ∈ dedupeAux seen (l₁ ++ x :: l₂)
  | [], x, l₂, seen, hx, _ => by
    simp only [List.nil_append, dedupeAux]
    rw [if_neg hx]
    exact List.mem_cons_self _ _
  | y :: l₁, x, l₂, seen, hx, hall => by
    simp only [List.cons_append, dedupeAux]
    split
    · exact dedupeAux_first_mem l₁ x l₂ seen hx
        (fun z hz => hall z (List.mem_cons.mpr (Or.inr hz)))
    · apply List.mem_cons.mpr
      right
      refine dedupeAux_first_mem l₁ x l₂ _ ?_
        (fun z hz => hall z (List.mem_cons.mpr (Or.inr hz)))
      intro hmem
      rcases List.mem_cons.mp hmem with h | h
      · exact hall y (List.mem_cons_self _ _) h.symm
      · exact hx h

/-! ### Shapes of extract_numbers matches (C7) -/

theorem scanFind_mem (f : Str → Option (Str × Str)) :
    ∀ (n : Nat) (l : Str) (m : Str), m ∈ scanFind f n l → ∃ x r, f x = some (m, r) := by
  intro n
  induction n with
  | zero => intro l m h; simp [scanFind] at h
  | succ n ih =>
    intro l m h
    match l with
    | [] => simp [scanFind] at h
    | c :: cs =>
      simp only [scanFind] at h
      split at h
      · next mm rest heq =>
        rcases List.mem_cons.mp h with h1 | h1
        · subst h1; exact ⟨c :: cs, rest, heq⟩
        · exact ih _ m h1
      · exact ih _ m h

theorem mem_takeWhile_digit : ∀ (l : Str) (c : Char),
    c ∈ l.takeWhile Char.isDigit → Char.isDigit c = true
  | [], c => by intro h; simp [List.takeWhile] at h
  | a :: r, c => by
    intro h
    rw [List.takeWhile_cons] at h
    split at h
    · next hp =>
      rcases List.mem_cons.mp h with h1 | h1
      · subst h1; exact hp
      · exact mem_takeWhile_digit r c h1
    · simp at h

theorem tryFracThen_decomp (k : Str → Option (Str × Str)) (d r1 m r : Str)
    (h : tryFracThen k d r1 = some (m, r)) :
    ∃ f km rest x, k x = some (km, rest) ∧
      (∀ c ∈ f, Char.isDigit c = true) ∧
      m = (d ++ '.' :: f) ++ km := by
  cases r1 with
  | nil => simp [tryFracThen] at h
  | cons c r2 =>
    simp only [tryFracThen] at h
    split at h
    · next hc =>
      subst hc
      split at h
      · exact absurd h (by simp)
      · split at h
        · next km rest hk =>
          have hx := Option.some.inj h
          refine ⟨r2.takeWhile Char.isDigit, km, rest, _, hk,
            fun c hc => mem_takeWhile_digit _ c hc, ?_⟩
          have hm : m = d ++ '.' :: (r2.takeWhile Char.isDigit ++ km) :=
            (congrArg Prod.fst hx).symm
          rw [hm]
          simp
        · exact absurd h (by simp)
    · exact absurd h (by simp)

theorem tryNumThen_decomp (k : Str → Option (Str × Str)) (l m r : Str)
    (h : tryNumThen k l = some (m, r)) :
    ∃ d mid km rest x, k x = some (km, rest) ∧ d ≠ [] ∧
      (∀ c ∈ d, Char.isDigit c = true) ∧
      (∀ c ∈ mid, Char.isDigit c = true ∨ c = '.') ∧
      m = (d ++ mid) ++ km := by
  unfold tryNumThen at h
  split at h
  · exact absurd h (by simp)
  · next hd =>
    split at h
    · next x heq =>
      have hx := Option.some.inj h
      obtain ⟨f, km, rest, x2, hk, hfd, hm⟩ := tryFracThen_decomp k _ _ _ _ heq
      refine ⟨l.takeWhile Char.isDigit, '.' :: f, km, rest, x2, hk, hd,
        fun c hc => mem_takeWhile_digit _ c hc, ?_, ?_⟩
      · intro c hc
        rcases List.mem_cons.mp hc with h1 | h1
        · exact Or.inr h1
        · exact Or.inl (hfd c h1)
      · have hmm : m = (l.takeWhile Char.isDigit ++ '.' :: f) ++ km := by
          rw [hx] at hm
          exact hm
        exact hmm
    · split at h
      · next km rest hk =>
        have hx := Option.some.inj h
        refine ⟨l.takeWhile Char.isDigit, [], km, rest, _, hk, hd,
          fun c hc => mem_takeWhile_digit _ c hc, by simp, ?_⟩
        have hm : m = l.takeWhile Char.isDigit ++ km := (congrArg Prod.fst hx).symm
        rw [hm]
        simp
      · exact absurd h (by simp)

theorem matchAltCI_exists (ws : List Str) (l w rest : Str)
    (h : matchAltCI ws l = some (w, rest)) : ∃ p ∈ ws, matchCI p l = some (w, rest) := by
  induction ws with
  | nil => simp [matchAltCI] at h
  | cons p ps ih =>
    simp only [matchAltCI] at h
    split at h
    · next x heq =>
      refine ⟨p, List.mem_cons_self _ _, ?_⟩
      rw [heq, h]
    · obtain ⟨q, hq, hm⟩ := ih h
      exact ⟨q, List.mem_cons.mpr (Or.inr hq), hm⟩

theorem startsWithCI_take_last : ∀ (p l : Str), startsWithCI p l = true → p ≠ [] →
    ∃ pre c, l.take p.length = pre ++ [c] ∧ downChar c = p.getLastD ' '
  | [], _, _, hp => absurd rfl hp
  | [a], l, h, _ => by
    cases l with
    | nil => simp [startsWithCI] at h
    | cons x xs =>
      simp only [startsWithCI, Bool.and_eq_true, decide_eq_true_eq] at h
      exact ⟨[], x, by simp, h.1.symm⟩
  | a :: b :: ps, l, h, _ => by
    cases l with
    | nil => simp [startsWithCI] at h
    | cons x xs =>
      simp only [startsWithCI, Bool.and_eq_true, decide_eq_true_eq] at h
      obtain ⟨pre, c, htake, hdc⟩ := startsWithCI_take_last (b :: ps) xs h.2 (by simp)
      refine ⟨x :: pre, c, ?_, ?_⟩
      · rw [List.length_cons, List.take_succ_cons, htake]
        rfl
      · exact hdc

theorem matchCI_shape (p l w rest : Str) (h : matchCI p l = some (w, rest)) (hp : p ≠ []) :
    ∃ pre c, w = pre ++ [c] ∧ downChar c = p.getLastD ' ' := by
  unfold matchCI at h
  split at h
  · next hs =>
    have hx := Option.some.inj h
    obtain ⟨pre, c, ht, hd⟩ := startsWithCI_take_last p l hs hp
    have hw : w = l.take p.length := (congrArg Prod.fst hx).symm
    exact ⟨pre, c, hw ▸ ht, hd⟩
  · exact absurd h (by simp)

theorem dollarSuffix_shape (r km rest : Str) (h : dollarSuffix r = some (km, rest)) :
    km = [] ∨ ∃ pre c, km = pre ++ [c] ∧
      (downChar c = 'n' ∨ downChar c = 'b' ∨ downChar c = 'm') := by
  unfold dollarSuffix at h
  split at h
  · next w rest2 heq =>
    right
    have hx := Option.some.inj h
    have hkm : km = r.takeWhile isSpc ++ w := (congrArg Prod.fst hx).symm
    obtain ⟨p, hpmem, hm⟩ := matchAltCI_exists _ _ _ _ heq
    have hp : p ≠ [] := by
      simp only [List.mem_cons, List.mem_singleton] at hpmem
      rcases hpmem with rfl | rfl | rfl | rfl | rfl | h6
      · decide
      · decide
      · decide
      · decide
      · decide
      · simp only [List.mem_cons, List.not_mem_nil, or_false] at h6
        subst h6
        decide
    obtain ⟨pre, c, hw, hdc⟩ := matchCI_shape p _ w rest2 hm hp
    refine ⟨r.takeWhile isSpc ++ pre, c, by rw [hkm, hw, List.append_assoc], ?_⟩
    simp only [List.mem_cons, List.mem_singleton] at hpmem
    rcases hpmem with rfl | rfl | rfl | rfl | rfl | h6
    · exact Or.inl (by rw [hdc]; decide)
    · exact Or.inl (by rw [hdc]; decide)
    · exact Or.inl (by rw [hdc]; decide)
    · exact Or.inl (by rw [hdc]; decide)
    · exact Or.inr (Or.inl (by rw [hdc]; decide))
    · simp only [List.mem_cons, List.not_mem_nil, or_false] at h6
      subst h6
      exact Or.inr (Or.inr (by rw [hdc]; decide))
  · exact Or.inl (congrArg Prod.fst (Option.some.inj h)).symm

theorem amountSuffix_shape (r km rest : Str) (h : amountSuffix r = some (km, rest)) :
    ∃ pre c, km = pre ++ [c] ∧ downChar c = 'n' := by
  unfold amountSuffix at h
  split at h
  · next w rest2 heq =>
    have hx := Option.some.inj h
    have hkm : km = r.takeWhile isSpc ++ w := (congrArg Prod.fst hx).symm
    obtain ⟨p, hpmem, hm⟩ := matchAltCI_exists _ _ _ _ heq
    have hp : p ≠ [] := by
      simp only [List.mem_cons, List.mem_singleton] at hpmem
      rcases hpmem with rfl | rfl | rfl | h4
      · decide
      · decide
      · decide
      · simp only [List.mem_cons, List.not_mem_nil, or_false] at h4
        subst h4
        decide
    obtain ⟨pre, c, hw, hdc⟩ := matchCI_shape p _ w rest2 hm hp
    refine ⟨r.takeWhile isSpc ++ pre, c, by rw [hkm, hw, List.append_assoc], ?_⟩
    simp only [List.mem_cons, List.mem_singleton] at hpmem
    rcases hpmem with rfl | rfl | rfl | h4
    · rw [hdc]; decide
    · rw [hdc]; decide
    · rw [hdc]; decide
    · simp only [List.mem_cons, List.not_mem_nil, or_false] at h4
      subst h4
      rw [hdc]; decide
  · exact absurd h (by simp)

theorem getLastD_append_right (x y : Str) (d : Char) (hy : y ≠ []) :
    (x ++ y).getLastD d = y.getLastD d := by
  rcases List.eq_nil_or_concat y with h | ⟨L, b, h⟩
  · exact absurd h hy
  · subst h
    rw [List.concat_eq_append, ← List.append_assoc, List.getLastD_concat,
      List.getLastD_concat]

theorem headD_append_left (d x : Str) (e : Char) (hd : d ≠ []) :
    (d ++ x).headD e = d.headD e := by
  cases d with
  | nil => exact absurd rfl hd
  | cons a r => rfl

theorem percentTail_shape (x km rest : Str) (h : percentTail x = some (km, rest)) :
    km = ['%'] := by
  cases x with
  | nil => simp [percentTail] at h
  | cons c r =>
    simp only [percentTail] at h
    split at h
    · next hc =>
      subst hc
      exact (congrArg Prod.fst (Option.some.inj h)).symm
    · exact absurd h (by simp)

theorem multTail_shape (x km rest : Str) (h : multTail x = some (km, rest)) :
    ∃ c, km = [c] ∧ (c = 'x' ∨ c = 'X') := by
  cases x with
  | nil => simp [multTail] at h
  | cons c r =>
    simp only [multTail] at h
    split at h
    · next hc =>
      refine ⟨c, (congrArg Prod.fst (Option.some.inj h)).symm, ?_⟩
      simpa using hc
    · exact absurd h (by simp)

theorem tryPercent_rank (l m r : Str) (h : tryPercent l = some (m, r)) :
    numberFamilyRank m = 0 := by
  unfold tryPercent at h
  obtain ⟨d, mid, km, rest, x, hk, _, _, _, hm⟩ := tryNumThen_decomp _ _ _ _ h
  have hkm := percentTail_shape x km rest hk
  subst hkm
  subst hm
  unfold numberFamilyRank
  rw [List.getLastD_concat]
  simp

theorem digit_ne_percent (c : Char) (h : Char.isDigit c = true) : c ≠ '%' := by
  intro he
  subst he
  exact absurd h (by decide)

theorem digit_ne_dollar (c : Char) (h : Char.isDigit c = true) : c ≠ '$' := by
  intro he
  subst he
  exact absurd h (by decide)

theorem append_ne_nil_left (d x : Str) (hd : d ≠ []) : d ++ x ≠ [] := by
  cases d with
  | nil => exact absurd rfl hd
  | cons a r => simp

theorem tryDollar_rank (l m r : Str) (h : tryDollar l = some (m, r)) :
    numberFamilyRank m = 1 := by
  cases l with
  | nil => simp [tryDollar] at h
  | cons c r2 =>
    simp only [tryDollar] at h
    split at h
    · next hc =>
      subst hc
      split at h
      · next m0 rest hk =>
        have hm : m = '$' :: m0 := (congrArg Prod.fst (Option.some.inj h)).symm
        subst hm
        obtain ⟨d, mid, km, rest2, x, hks, hd, hdig, hmid, hm0⟩ :=
          tryNumThen_decomp _ _ _ _ hk
        have hm0ne : m0 ≠ [] := by
          rw [hm0]
          exact append_ne_nil_left _ _ (append_ne_nil_left _ _ hd)
        have hlast : ∃ b, List.getLastD m0 '$' = b ∧ b ≠ '%' := by
          rcases dollarSuffix_shape _ _ _ hks with hnil | ⟨pre, cc, hkm, hdc⟩
          · subst hnil
            rw [List.append_nil] at hm0
            rcases List.eq_nil_or_concat (d ++ mid) with hx | ⟨L, b, hx⟩
            · exact absurd hx (append_ne_nil_left _ _ hd)
            · refine ⟨b, ?_, ?_⟩
              · rw [hm0, hx, List.concat_eq_append, List.getLastD_concat]
              · have hbmem : b ∈ d ++ mid := by
                  rw [hx, List.concat_eq_append]
                  exact List.mem_append_right _ (List.mem_singleton_self b)
                rcases List.mem_append.mp hbmem with hb | hb
                · exact digit_ne_percent b (hdig b hb)
                · rcases hmid b hb with hb1 | hb1
                  · exact digit_ne_percent b hb1
                  · subst hb1; decide
          · refine ⟨cc, ?_, ?_⟩
            · rw [hm0, hkm, ← List.append_assoc, List.getLastD_concat]
            · intro he
              subst he
              rcases hdc with h1 | h1 | h1 <;> exact absurd h1 (by decide)
        obtain ⟨b, hb, hbne⟩ := hlast
        unfold numberFamilyRank
        have hgl : List.getLastD ('$' :: m0) ' ' = b := by
          have : ('$' :: m0 : Str) = ['$'] ++ m0 := rfl
          rw [this, getLastD_append_right _ _ _ hm0ne]
          rcases List.eq_nil_or_concat m0 with hx | ⟨L, bb, hx⟩
          · exact absurd hx hm0ne
          · rw [hx, List.concat_eq_append, List.getLastD_concat] at hb ⊢
            exact hb
        rw [hgl, if_neg hbne]
        simp
      · exact absurd h (by simp)
    · exact absurd h (by simp)

theorem tryMult_rank (l m r : Str) (h : tryMult l = some (m, r)) :
    numberFamilyRank m = 2 := by
  unfold tryMult at h
  obtain ⟨d, mid, km, rest, x, hk, hd, hdig, _, hm⟩ := tryNumThen_decomp _ _ _ _ h
  obtain ⟨c, hkm, hcx⟩ := multTail_shape x km rest hk
  subst hkm
  subst hm
  obtain ⟨c0, d', hd0⟩ : ∃ c0 d', d = c0 :: d' := by
    cases d with
    | nil => exact absurd rfl hd
    | cons a r0 => exact ⟨a, r0, rfl⟩
  have hc0 : Char.isDigit c0 = true := hdig c0 (hd0 ▸ List.mem_cons_self _ _)
  unfold numberFamilyRank
  rw [List.getLastD_concat]
  have hne : c ≠ '%' := by
    rcases hcx with rfl | rfl <;> decide
  rw [if_neg hne]
  have hhead : ((d ++ mid) ++ [c]).headD ' ' = c0 := by
    rw [headD_append_left _ _ _ (append_ne_nil_left _ _ hd),
      headD_append_left _ _ _ hd, hd0]
    rfl
  rw [hhead, if_neg (digit_ne_dollar c0 hc0)]
  rcases hcx with rfl | rfl <;> simp

theorem downChar_n_facts (c : Char) (h : downChar c = 'n') :
    c ≠ '%' ∧ c ≠ 'x' ∧ c ≠ 'X' := by
  refine ⟨?_, ?_, ?_⟩ <;> intro he <;> subst he <;> exact absurd h (by decide)

theorem tryAmount_rank (l m r : Str) (h : tryAmount l = some (m, r)) :
    numberFamilyRank m = 3 := by
  unfold tryAmount at h
  obtain ⟨d, mid, km, rest, x, hk, hd, hdig, _, hm⟩ := tryNumThen_decomp _ _ _ _ h
  obtain ⟨pre, c, hkm, hdc⟩ := amountSuffix_shape x km rest hk
  subst hkm
  subst hm
  obtain ⟨hne1, hne2, hne3⟩ := downChar_n_facts c hdc
  obtain ⟨c0, d', hd0⟩ : ∃ c0 d', d = c0 :: d' := by
    cases d with
    | nil => exact absurd rfl hd
    | cons a r0 => exact ⟨a, r0, rfl⟩
  have hc0 : Char.isDigit c0 = true := hdig c0 (hd0 ▸ List.mem_cons_self _ _)
  unfold numberFamilyRank
  have hgl : ((d ++ mid) ++ (pre ++ [c])).getLastD ' ' = c := by
    rw [← List.append_assoc, List.getLastD_concat]
  rw [hgl, if_neg hne1]
  have hhead : ((d ++ mid) ++ (pre ++ [c])).headD ' ' = c0 := by
    rw [headD_append_left _ _ _ (append_ne_nil_left _ _ hd),
      headD_append_left _ _ _ hd, hd0]
    rfl
  rw [hhead, if_neg (digit_ne_dollar c0 hc0)]
  have : (c = 'x' || c = 'X') = false := by
    cases hx : (c = 'x' : Bool) with
    | true => exact absurd (of_decide_eq_true hx) hne2
    | false =>
      cases hX : (c = 'X' : Bool) with
      | true => exact absurd (of_decide_eq_true hX) hne3
      | false => rfl
  rw [if_neg (by rw [this]; simp)]

theorem pairwise_rank_const (L : List Str) (k : Nat)
    (h : ∀ m ∈ L, numberFamilyRank m = k) :
    L.Pairwise (fun a b => numberFamilyRank a ≤ numberFamilyRank b) := by
  induction L with
  | nil => exact List.Pairwise.nil
  | cons a as ih =>
    refine List.Pairwise.cons ?_ (ih fun m hm => h m (List.mem_cons.mpr (Or.inr hm)))
    intro b hb
    rw [h a (List.mem_cons_self _ _), h b (List.mem_cons.mpr (Or.inr hb))]

theorem extract_numbers_pairwise (t : Str) :
    (extract_numbers t).Pairwise (fun a b => numberFamilyRank a ≤ numberFamilyRank b) := by
  have hP : ∀ m ∈ scanFind tryPercent t.length t, numberFamilyRank m = 0 := by
    intro m hm
    obtain ⟨x, r, hx⟩ := scanFind_mem _ _ _ _ hm
    exact tryPercent_rank _ _ _ hx
  have hD : ∀ m ∈ scanFind tryDollar t.length t, numberFamilyRank m = 1 := by
    intro m hm
    obtain ⟨x, r, hx⟩ := scanFind_mem _ _ _ _ hm
    exact tryDollar_rank _ _ _ hx
  have hM : ∀ m ∈ scanFind tryMult t.length t, numberFamilyRank m = 2 := by
    intro m hm
    obtain ⟨x, r, hx⟩ := scanFind_mem _ _ _ _ hm
    exact tryMult_rank _ _ _ hx
  have hA : ∀ m ∈ scanFind tryAmount t.length t, numberFamilyRank m = 3 := by
    intro m hm
    obtain ⟨x, r, hx⟩ := scanFind_mem _ _ _ _ hm
    exact tryAmount_rank _ _ _ hx
  unfold extract_numbers
  refine List.Pairwise.sublist (List.take_sublist _ _) ?_
  rw [List.pairwise_append]
  refine ⟨?_, pairwise_rank_const _ 3 hA, ?_⟩
  · rw [List.pairwise_append]
    refine ⟨?_, pairwise_rank_const _ 2 hM, ?_⟩
    · rw [List.pairwise_append]
      refine ⟨pairwise_rank_const _ 0 hP, pairwise_rank_const _ 1 hD, ?_⟩
      intro a ha b hb
      rw [hP a ha]
      omega
    · intro a ha b hb
      rw [hM b hb]
      rcases List.mem_append.mp ha with h | h
      · rw [hP a h]; omega
      · rw [hD a h]; omega
  · intro a ha b hb
    rw [hA b hb]
    rcases List.mem_append.mp ha with h | h
    · rcases List.mem_append.mp h with h2 | h2
      · rw [hP a h2]; omega
      · rw [hD a h2]; omega
    · rw [hM a h]; omega

theorem wsOk_dropWhile : ∀ t : Str, wsOk t = true → wsOk (t.dropWhile isSpc) = true
  | [] => fun _ => rfl
  | c :: r => by
    intro h
    rw [List.dropWhile_cons]
    split
    · exact wsOk_dropWhile r (wsOk_tail c r h)
    · exact h

theorem trimRight_cons_structure (r : Str) (f : Char) (X : Str)
    (h : trimRight r = f :: X) : ∃ r₂, r = f :: r₂ := by
  cases r with
  | nil => simp [trimRight] at h
  | cons a r₂ =>
    simp only [trimRight] at h
    split at h
    · simp at h
    · injection h with h1 _
      exact ⟨r₂, by rw [h1]⟩

theorem wsOk_trimRight : ∀ t : Str, wsOk t = true → wsOk (trimRight t) = true
  | [] => fun _ => rfl
  | c :: r => by
    intro h
    simp only [trimRight]
    split
    · rfl
    · have hr : wsOk (trimRight r) = true := wsOk_trimRight r (wsOk_tail c r h)
      cases hx : trimRight r with
      | nil =>
        have h1 := wsOk_head c r h
        simpa [wsOk] using h1
      | cons f X =>
        obtain ⟨r₂, hr₂⟩ := trimRight_cons_structure r f X hx
        have hadj : (isSpc c && isSpc f) = false := wsOk_adj c f r₂ (by rw [← hr₂]; exact h)
        rw [hx] at hr
        have hhead := wsOk_head c r h
        simp only [wsOk, Bool.and_eq_true]
        refine ⟨⟨hhead, ?_⟩, hr⟩
        rw [hadj]
        rfl

theorem firstDotSplit_decomp : ∀ t : Str, containsStr ". ".data t = true →
    ∃ rest, t = firstDotSplit t ++ '.' :: ' ' :: rest
  | [], h => by simp [containsStr, startsWith] at h
  | c :: cs, h => by
    by_cases h1 : startsWith ". ".data (c :: cs) = true
    · have hc : c = '.' := by
        have h2 : (('.' = c) && startsWith [' '] cs) = true := h1
        simp only [Bool.and_eq_true, decide_eq_true_eq] at h2
        exact h2.1.symm
      have hcs : startsWith [' '] cs = true := by
        have h2 : (('.' = c) && startsWith [' '] cs) = true := h1
        simp only [Bool.and_eq_true] at h2
        exact h2.2
      obtain ⟨cs2, hcs2⟩ : ∃ cs2, cs = ' ' :: cs2 := by
        cases cs with
        | nil => simp [startsWith] at hcs
        | cons a cs2 =>
          have h3 : ((' ' = a) && startsWith [] cs2) = true := hcs
          simp only [Bool.and_eq_true, decide_eq_true_eq] at h3
          exact ⟨cs2, by rw [h3.1]⟩
      subst hc
      subst hcs2
      refine ⟨cs2, ?_⟩
      rw [firstDotSplit, if_pos h1, List.nil_append]
    · have hx : startsWith ". ".data (c :: cs) = false := by
        rw [Bool.not_eq_true] at h1
        exact h1
      have h2 : containsStr ". ".data cs = true := by
        have h3 : (startsWith ". ".data (c :: cs) || containsStr ". ".data cs) = true := h
        rw [hx] at h3
        simpa using h3
      obtain ⟨rest, hrest⟩ := firstDotSplit_decomp cs h2
      refine ⟨rest, ?_⟩
      simp only [firstDotSplit, hx, Bool.false_eq_true, if_false, List.cons_append]
      rw [← hrest]

theorem firstDotSplit_not_contains : ∀ t : Str,
    containsStr ". ".data (firstDotSplit t) = false
  | [] => rfl
  | c :: cs => by
    by_cases h1 : startsWith ". ".data (c :: cs) = true
    · simp only [firstDotSplit, h1, if_true]
      rfl
    · have hx : startsWith ". ".data (c :: cs) = false := by
        rw [Bool.not_eq_true] at h1
        exact h1
      simp only [firstDotSplit, hx, Bool.false_eq_true, if_false]
      have ih := firstDotSplit_not_contains cs
      simp only [containsStr, Bool.or_eq_false_iff]
      refine ⟨?_, ih⟩
      by_cases hc : c = '.'
      · subst hc
        have hcs : startsWith [' '] cs = false := by
          have h2 : startsWith ". ".data ('.' :: cs) =
              (('.' = '.') && startsWith [' '] cs) := rfl
          rw [h2] at hx
          simpa using hx
        show (('.' = '.') && startsWith [' '] (firstDotSplit cs)) = false
        simp only [decide_eq_true_eq, Bool.true_and]
        cases cs with
        | nil => rfl
        | cons c2 cs2 =>
          by_cases h2 : startsWith ". ".data (c2 :: cs2) = true
          · rw [firstDotSplit, if_pos h2]
            rfl
          · have h2x : startsWith ". ".data (c2 :: cs2) = false := by
              rw [Bool.not_eq_true] at h2
              exact h2
            simp only [firstDotSplit, h2x, Bool.false_eq_true, if_false]
            have hc2 : (' ' = c2 : Bool) = false := by
              have h3 : startsWith [' '] (c2 :: cs2) = ((' ' = c2) && true) := rfl
              rw [h3] at hcs
              simpa using hcs
            show ((' ' = c2) && startsWith [] cs2) = false
            rw [hc2]
            rfl
      · show (('.' = c) && startsWith [' '] (firstDotSplit cs)) = false
        have : ('.' = c : Bool) = false := by
          cases hd : ('.' = c : Bool)
          · rfl
          · exact absurd (of_decide_eq_true hd).symm hc
        rw [this]
        rfl

theorem reportCards_cap (o : SetOrder) (r : Report) :
    reportCards o ⟨r.title, r.key_views.take 2⟩ = reportCards o r := by
  unfold reportCards
  dsimp only
  rw [List.take_take]
  norm_num

theorem flatMap_reportCards_cap (o : SetOrder) : ∀ rs : List Report,
    (rs.map (fun r => (⟨r.title, r.key_views.take 2⟩ : Report))).flatMap (reportCards o)
      = rs.flatMap (reportCards o)
  | [] => rfl
  | r :: rs => by
    simp only [List.map_cons, List.flatMap_cons]
    rw [reportCards_cap, flatMap_reportCards_cap o rs]

theorem mainCards_capData (o : SetOrder) (d : Data) :
    mainCards o (capData d) = mainCards o d := by
  unfold mainCards capData
  dsimp only
  have hai : ((d.ai_views.take 30).map
      (fun r => (⟨r.title, r.key_views.take 2⟩ : Report))).take 30
      = (d.ai_views.take 30).map (fun r => (⟨r.title, r.key_views.take 2⟩ : Report)) :=
    List.take_of_length_le (by rw [List.length_map]; exact List.length_take_le 30 _)
  rw [hai, flatMap_reportCards_cap, List.take_take, List.take_take]
  norm_num

theorem mainUnique_capData (o : SetOrder) (d : Data) :
    mainUnique o (capData d) = mainUnique o d := by
  unfold mainUnique
  rw [mainCards_capData]

theorem mem_contrarianStage (gen : Insight → List Card) (item : Insight) (c : Card)
    (h : c ∈ contrarianStage gen item) :
    ∃ c₀, c₀ ∈ gen (withView item) ∧ c = setTypeContrarian c₀ := by
  unfold contrarianStage at h
  rw [List.mem_map] at h
  obtain ⟨c₀, h1, h2⟩ := h
  exact ⟨c₀, h1, h2.symm⟩

theorem templateExpanded_ne_nil (cat : Str) : templateExpanded cat ≠ [] := by
  rw [templateExpanded]
  intro h
  rcases List.append_eq_nil.mp h with ⟨h1, _⟩
  rcases List.append_eq_nil.mp h1 with ⟨_, h4⟩
  exact absurd h4 (by decide)

theorem gec_ne_nil (ext : ExtCall) (cc cat ty sc : Str) :
    generate_expanded_content ext cc cat ty sc ≠ [] := by
  unfold generate_expanded_content
  cases ext with
  | noClient => exact templateExpanded_ne_nil cat
  | raised => exact templateExpanded_ne_nil cat
  | returned t =>
    dsimp only
    split
    · next hl =>
      intro h
      rw [h] at hl
      simp at hl
    · exact templateExpanded_ne_nil cat

theorem mem_aiValidate_expanded_ne (ext2 : ExtCall) (title : Str) :
    ∀ (cards : List AiCard) (c : Card), c ∈ aiValidate ext2 title cards → c.expanded ≠ []
  | [], c, h => absurd h (List.not_mem_nil c)
  | a :: rest, c, h => by
    unfold aiValidate at h
    split at h
    · dsimp only at h
      split at h
      · rcases List.mem_cons.mp h with h1 | h1
        · rw [h1]
          dsimp only
          exact gec_ne_nil _ _ _ _ _
        · exact mem_aiValidate_expanded_ne ext2 title rest c h1
      · exact mem_aiValidate_expanded_ne ext2 title rest c h
    · exact mem_aiValidate_expanded_ne ext2 title rest c h

theorem mem_generate_card_ai_expanded_ne (o : SetOrder) (ai : AiResult) (ext2 : ExtCall)
    (ins : Insight) (c : Card) (h : c ∈ generate_card_ai o ai ext2 ins) :
    c.expanded ≠ [] := by
  unfold generate_card_ai at h
  cases ai with
  | unavailable =>
    rw [generate_card_rules_eq_nil] at h
    exact absurd h (List.not_mem_nil c)
  | failed =>
    dsimp only at h
    split at h
    · exact absurd h (List.not_mem_nil c)
    · rw [generate_card_rules_eq_nil] at h
      exact absurd h (List.not_mem_nil c)
  | parsed cards =>
    dsimp only at h
    split at h
    · exact absurd h (List.not_mem_nil c)
    · split at h
      · rw [generate_card_rules_eq_nil] at h
        exact absurd h (List.not_mem_nil c)
      · exact mem_aiValidate_expanded_ne ext2 ins.title cards c h

theorem trimRight_concat_nonspace (s : Str) (c : Char) (h : isSpc c = false) :
    trimRight (s ++ [c]) = s ++ [c] := by
  induction s with
  | nil => simp [trimRight, h]
  | cons a s ih =>
    rw [List.cons_append, trimRight]
    rw [ih]
    have h2 : (decide (s ++ [c] = []) && isSpc a) = false := by
      have : (s ++ [c] : Str) ≠ [] := by simp
      simp [this]
    rw [h2]
    simp

theorem trimRight_eq_self_of_getLast (s : Str) (c : Char) (h : s.getLast? = some c)
    (hc : isSpc c = false) : trimRight s = s := by
  rcases s.eq_nil_or_concat with rfl | ⟨i, l, rfl⟩
  · simp at h
  · rw [List.concat_eq_append] at h ⊢
    rw [List.getLast?_concat] at h
    injection h with h
    subst h
    exact trimRight_concat_nonspace i l hc

theorem strip_bodyA : strip bodyA = bodyA := by
  unfold strip
  have hdrop : bodyA.dropWhile isSpc = bodyA := by decide
  rw [hdrop]
  exact trimRight_eq_self_of_getLast bodyA 'n' (by decide) (by decide)

theorem clean_text_bodyA : clean_text bodyA = bodyA := by
  unfold clean_text
  dsimp only
  have hcol : collapseWs bodyA = bodyA := by decide
  rw [hcol]
  have hex : scanSub tryExhibit bodyA.length bodyA = bodyA := by decide
  rw [hex]
  have hexc : scanSub tryExclusive bodyA.length bodyA = bodyA := by decide
  rw [hexc]
  have hsrc : scanSub trySource bodyA.length bodyA = bodyA := by decide
  rw [hsrc]
  exact strip_bodyA

theorem hedging_bodyA : remove_hedging bodyA = bodyA := by
  unfold remove_hedging
  dsimp only
  have h1 : subHedge "may" bodyA = bodyA := by decide
  rw [h1]
  have h2 : subHedge "might" bodyA = bodyA := by decide
  rw [h2]
  have h3 : subHedge "could" bodyA = bodyA := by decide
  rw [h3]
  have h4 : subHedge "potentially" bodyA = bodyA := by decide
  rw [h4]
  have h5 : subHedge "likely" bodyA = bodyA := by decide
  rw [h5]
  have h6 : subHedge "probably" bodyA = bodyA := by decide
  rw [h6]
  have h7 : subHedge "possibly" bodyA = bodyA := by decide
  rw [h7]
  have h8 : subHedge "perhaps" bodyA = bodyA := by decide
  rw [h8]
  have h9 : subHedge "seems to" bodyA = bodyA := by decide
  rw [h9]
  have h10 : subHedge "appears to" bodyA = bodyA := by decide
  rw [h10]
  have h11 : subHedge "tends to" bodyA = bodyA := by decide
  rw [h11]
  have h12 : subHedge "in our view" bodyA = bodyA := by decide
  rw [h12]
  have h13 : subHedge "in our opinion" bodyA = bodyA := by decide
  rw [h13]
  have hcol : collapseWs bodyA = bodyA := by decide
  rw [hcol]
  exact strip_bodyA

theorem prose_bodyA : clean_prose bodyA = bodyA := by
  unfold clean_prose
  dsimp only
  have h1 : stripPat "we believe that" bodyA = bodyA := by decide
  rw [h1]
  have h2 : stripPat "we believe" bodyA = bodyA := by decide
  rw [h2]
  have h3 : stripPat "we think that" bodyA = bodyA := by decide
  rw [h3]
  have h4 : stripPat "we think" bodyA = bodyA := by decide
  rw [h4]
  have h5 : stripPat "we expect that" bodyA = bodyA := by decide
  rw [h5]
  have h6 : stripPat "we expect" bodyA = bodyA := by decide
  rw [h6]
  have h7 : stripPat "our view is that" bodyA = bodyA := by decide
  rw [h7]
  have h8 : stripPat "it is important to note that" bodyA = bodyA := by decide
  rw [h8]
  have h9 : stripPatComma "importantly" bodyA = bodyA := by decide
  rw [h9]
  have h10 : stripPatComma "critically" bodyA = bodyA := by decide
  rw [h10]
  have h11 : stripPatComma "in conclusion" bodyA = bodyA := by decide
  rw [h11]
  have h12 : stripPat "the bottom line is that" bodyA = bodyA := by decide
  rw [h12]
  have h13 : stripKeyPat bodyA = bodyA := by decide
  rw [h13]
  have hcol : collapseWs bodyA = bodyA := by decide
  rw [hcol, strip_bodyA]
  decide

theorem sent_bodyA : sentencesSplit bodyA = [bodyA] := by
  unfold sentencesSplit
  have hsp : splitPunct bodyA = [bodyA] := by decide
  rw [hsp, List.map_cons, List.map_nil, strip_bodyA]
  have hlen : decide (15 < bodyA.length) = true := by decide
  simp [List.filter, hlen]

theorem best_bodyA : bestOf ins6a = bodyA := by
  unfold bestOf
  dsimp only
  have hraw : rawOf ins6a = bodyA := rfl
  have hnum : extract_numbers bodyA = [] := by decide
  simp only [hraw, clean_text_bodyA, sent_bodyA, hnum, List.any_nil]
  decide

theorem ctx_bodyA : contextOf ins6a = [] := by
  unfold contextOf
  have hraw : rawOf ins6a = bodyA := rfl
  simp only [hraw, clean_text_bodyA, sent_bodyA, best_bodyA]
  decide

theorem join_bodyA : joinedOf ins6a = bodyA := by
  unfold joinedOf
  rw [ctx_bodyA, best_bodyA, if_pos rfl]

theorem comp_bodyA : composedOf ins6a = bodyA := by
  unfold composedOf
  rw [join_bodyA, hedging_bodyA, prose_bodyA]

/-! ### Claim theorems -/

/-- C1: the specification asserts that every card emitted by the rule path
(`generate_card_rules`) has content of length between 30 and 280 that ends in
terminal punctuation and passes `is_complete_card`, and its own test scenario
expects the Ferrari record to emit exactly one such card.  In fact the rule
path emits no card at all, for every input — in particular for the Ferrari
record — so the quoted per-card property holds only vacuously and the card the
spec expects is never produced. -/
theorem C1_rule_path_emits_no_card :
    generate_card_rules dedupOrder ferrariInsight = [] ∧
    ∀ (o : SetOrder) (ins : Insight), generate_card_rules o ins = [] :=
  ⟨generate_card_rules_eq_nil dedupOrder ferrariInsight, generate_card_rules_eq_nil⟩

/-- C2: the deduplication pass keeps the output free of repeated 40-character
content prefixes, only ever removes cards (the result is a sublist of the
input sequence), and keeps the first card of every colliding prefix: whenever
the input splits as `l₁ ++ x :: l₂` with no earlier card of `l₁` sharing the
key of `x`, the card `x` survives. -/
theorem C2_dedup_first_seen_wins (cards : List Card) :
    List.Pairwise (fun a b => dedupKey a ≠ dedupKey b) (dedupe cards) ∧
    List.Sublist (dedupe cards) cards ∧
    ∀ (l₁ : List Card) (x : Card) (l₂ : List Card),
      cards = l₁ ++ x :: l₂ → (∀ y ∈ l₁, dedupKey y ≠ dedupKey x) →
      x ∈ dedupe cards := by
  refine ⟨dedupeAux_pairwise cards [], dedupeAux_sublist cards [], ?_⟩
  intro l₁ x l₂ hsplit hall
  subst hsplit
  exact dedupeAux_first_mem l₁ x l₂ [] (List.not_mem_nil _) hall

/-- C2 witness: of the two colliding concrete cards `c2a` and `c2b`, the
earlier one survives deduplication. -/
theorem C2_witness : c2a ∈ dedupe [c2a, c2b] :=
  (C2_dedup_first_seen_wins [c2a, c2b]).2.2 [] c2a [c2b] rfl
    (fun y hy => absurd hy (List.not_mem_nil y))

/-- C3: two rule-path runs over the same input batches produce identical card
sequences, both before and after deduplication, whatever CPython set
enumeration order each run used for the ticker set; likewise for a single
record.  (The determinism law holds, though degenerately: the rule path emits
nothing, so the set-order non-determinism of the ticker code is dead.) -/
theorem C3_rule_path_deterministic (o₁ o₂ : SetOrder) (d : Data) (ins : Insight) :
    mainCards o₁ d = mainCards o₂ d ∧ mainUnique o₁ d = mainUnique o₂ d ∧
    generate_card_rules o₁ ins = generate_card_rules o₂ ins := by
  refine ⟨?_, ?_, ?_⟩
  · rw [mainCards_eq_nil, mainCards_eq_nil]
  · rw [mainUnique_eq_nil, mainUnique_eq_nil]
  · rw [generate_card_rules_eq_nil, generate_card_rules_eq_nil]

/-- C4 counterexample: `clean_text` is not idempotent.  On the input
`"a Exhibit 1 b"` the first pass removes the `Exhibit 1` boilerplate and
leaves a double space, which only the second passes collapse removes. -/
theorem C4_counterexample :
    clean_text (clean_text "a Exhibit 1 b".data) ≠ clean_text "a Exhibit 1 b".data := by
  decide

/-- C4 (amended): `clean_text` is idempotent on every input whose
whitespace-collapsed form contains none of the three boilerplate triggers
(`Exhibit `, `For the exclusive use of`, `Source:`); on such inputs the
substitution passes are the identity and the collapse/strip core is
idempotent. -/
theorem C4_clean_text_idempotent_amended (x : Str)
    (h1 : containsStr "Exhibit ".data (collapseWs x) = false)
    (h2 : containsStr "For the exclusive use of".data (collapseWs x) = false)
    (h3 : containsStr "Source:".data (collapseWs x) = false) :
    clean_text (clean_text x) = clean_text x := by
  have hid1 : ∀ n, scanSub tryExhibit n (collapseWs x) = collapseWs x :=
    scanSub_id tryExhibit (collapseWs x)
      (fun i => tryExhibit_none _ ((containsStr_eq_false_iff _ _).mp h1 i))
  have hid2 : ∀ n, scanSub tryExclusive n (collapseWs x) = collapseWs x :=
    scanSub_id tryExclusive (collapseWs x)
      (fun i => tryExclusive_none _ ((containsStr_eq_false_iff _ _).mp h2 i))
  have hid3 : ∀ n, scanSub trySource n (collapseWs x) = collapseWs x :=
    scanSub_id trySource (collapseWs x)
      (fun i => trySource_none _ ((containsStr_eq_false_iff _ _).mp h3 i))
  have e1 : clean_text x = strip (collapseWs x) := by
    unfold clean_text
    dsimp only
    rw [hid1 _, hid2 _, hid3 _]
  have hws : wsOk (strip (collapseWs x)) = true :=
    wsOk_trimRight _ (wsOk_dropWhile _ (wsOk_collapseWs x))
  have hcolS : collapseWs (strip (collapseWs x)) = strip (collapseWs x) :=
    collapseWs_eq_self_of_wsOk _ hws
  have habsent : ∀ p : Str, p ≠ [] → containsStr p (collapseWs x) = false →
      containsStr p (strip (collapseWs x)) = false := by
    intro p hp hfalse
    cases hcase : containsStr p (strip (collapseWs x)) with
    | false => rfl
    | true =>
      have := contains_of_contains_strip p (collapseWs x) hp hcase
      rw [hfalse] at this
      exact Bool.noConfusion this
  have hS1 := habsent "Exhibit ".data (by decide) h1
  have hS2 := habsent "For the exclusive use of".data (by decide) h2
  have hS3 := habsent "Source:".data (by decide) h3
  have hidS1 : ∀ n, scanSub tryExhibit n (collapseWs (strip (collapseWs x)))
      = collapseWs (strip (collapseWs x)) := by
    rw [hcolS]
    exact scanSub_id tryExhibit _
      (fun i => tryExhibit_none _ ((containsStr_eq_false_iff _ _).mp hS1 i))
  have hidS2 : ∀ n, scanSub tryExclusive n (collapseWs (strip (collapseWs x)))
      = collapseWs (strip (collapseWs x)) := by
    rw [hcolS]
    exact scanSub_id tryExclusive _
      (fun i => tryExclusive_none _ ((containsStr_eq_false_iff _ _).mp hS2 i))
  have hidS3 : ∀ n, scanSub trySource n (collapseWs (strip (collapseWs x)))
      = collapseWs (strip (collapseWs x)) := by
    rw [hcolS]
    exact scanSub_id trySource _
      (fun i => trySource_none _ ((containsStr_eq_false_iff _ _).mp hS3 i))
  rw [e1]
  unfold clean_text
  dsimp only
  rw [hidS1 _, hidS2 _, hidS3 _, hcolS]
  exact strip_idem _

/-- C4 witness: the amended idempotence law applies to the concrete trigger-free
input `" Margins  rose fast. "`. -/
theorem C4_witness :
    clean_text (clean_text " Margins  rose fast. ".data)
      = clean_text " Margins  rose fast. ".data :=
  C4_clean_text_idempotent_amended " Margins  rose fast. ".data
    (by decide) (by decide) (by decide)

/-- C5 counterexample: cards are not immutable after construction.  On the AI
path the contrarian batch of `main` overwrites the `type` of an already
constructed card: the parsed external card `c5Ai` is built with type `lesson`,
but after the contrarian loop its type reads `contrarian`. -/
theorem C5_counterexample :
    (contrarianStage (generate_card_ai dedupOrder (AiResult.parsed [c5Ai]) ExtCall.raised)
        c5Item).map Card.type = ["contrarian".data] ∧
    (generate_card_ai dedupOrder (AiResult.parsed [c5Ai]) ExtCall.raised
        (withView c5Item)).map Card.type = ["lesson".data] :=
  ⟨by decide, by decide⟩

/-- C5 (amended): deduplication only drops cards (it yields a sublist and
never edits), and the only post-construction mutation in the pipeline is the
contrarian batch of `main`, which rewrites exactly the `type` field of each
generated card to `contrarian` and leaves every other field unchanged. -/
theorem C5_frame_amended :
    (∀ l : List Card, List.Sublist (dedupe l) l) ∧
    ∀ (gen : Insight → List Card) (item : Insight) (c : Card),
      c ∈ contrarianStage gen item →
      ∃ c₀, c₀ ∈ gen (withView item) ∧ c.type = "contrarian".data ∧
        c.content = c₀.content ∧ c.expanded = c₀.expanded ∧ c.tickers = c₀.tickers ∧
        c.source = c₀.source ∧ c.source_title = c₀.source_title ∧
        c.categories = c₀.categories := by
  constructor
  · intro l
    exact dedupeAux_sublist l []
  · intro gen item c h
    obtain ⟨c₀, h1, h2⟩ := mem_contrarianStage gen item c h
    subst h2
    exact ⟨c₀, h1, rfl, rfl, rfl, rfl, rfl, rfl, rfl⟩

/-- C5 witness: the amended frame law applied to the concrete contrarian-batch
card obtained from `c5Ai`. -/
theorem C5_witness :
    ∃ c₀, c₀ ∈ generate_card_ai dedupOrder (AiResult.parsed [c5Ai]) ExtCall.raised
        (withView c5Item) ∧
      (setTypeContrarian c5Card).type = "contrarian".data ∧
      (setTypeContrarian c5Card).content = c₀.content ∧
      (setTypeContrarian c5Card).expanded = c₀.expanded ∧
      (setTypeContrarian c5Card).tickers = c₀.tickers ∧
      (setTypeContrarian c5Card).source = c₀.source ∧
      (setTypeContrarian c5Card).source_title = c₀.source_title ∧
      (setTypeContrarian c5Card).categories = c₀.categories :=
  C5_frame_amended.2 (generate_card_ai dedupOrder (AiResult.parsed [c5Ai]) ExtCall.raised)
    c5Item (setTypeContrarian c5Card) (by decide)

/-- C6: the composer never hard-truncates mid-sentence and never appends an
ellipsis: the truncated text is the prefix of the composed text before its
first `. ` boundary (the decomposition below), that prefix itself contains no
earlier `. ` boundary, and the only terminator the composer appends is a
single period; when even the truncated text exceeds 280 characters the record
yields zero cards. -/
theorem C6_truncation_policy (o : SetOrder) (ins : Insight) :
    (280 < (composedOf ins).length →
      280 < (firstDotSplit (composedOf ins) ++ ['.']).length →
      generate_card_rules o ins = []) ∧
    (containsStr ". ".data (composedOf ins) = true →
      (∃ rest, composedOf ins = firstDotSplit (composedOf ins) ++ '.' :: ' ' :: rest) ∧
      containsStr ". ".data (firstDotSplit (composedOf ins)) = false) := by
  constructor
  · intro _ _
    exact generate_card_rules_eq_nil o ins
  · intro h
    exact ⟨firstDotSplit_decomp _ h, firstDotSplit_not_contains _⟩

/-- C6 witness: the record `ins6a` composes to a 302-character text with no
`. ` boundary, so its truncation still exceeds 280 and it yields zero cards;
the record `ins6b` composes to a text with a genuine `. ` boundary, at which
the cut decomposes as stated. -/
theorem C6_witness :
    generate_card_rules dedupOrder ins6a = [] ∧
    ((∃ rest, composedOf ins6b = firstDotSplit (composedOf ins6b) ++ '.' :: ' ' :: rest) ∧
      containsStr ". ".data (firstDotSplit (composedOf ins6b)) = false) := by
  refine ⟨(C6_truncation_policy dedupOrder ins6a).1 ?_ ?_,
    (C6_truncation_policy dedupOrder ins6b).2 ?_⟩
  · rw [comp_bodyA]
    decide
  · rw [comp_bodyA]
    have hfds : firstDotSplit bodyA = bodyA := by decide
    rw [hfds]
    decide
  · decide

/-- C7: `extract_numbers` returns at most 3 strings, ordered by regex family —
percentages (rank 0) before currency amounts (rank 1) before multiples
(rank 2) before bare billion/million amounts (rank 3); in particular a
percentage always precedes a dollar amount in the result. -/
theorem C7_extract_numbers_priority (t : Str) :
    (extract_numbers t).length ≤ 3 ∧
    ∀ (i j : Nat) (hi : i < (extract_numbers t).length)
      (hj : j < (extract_numbers t).length), i ≤ j →
      numberFamilyRank ((extract_numbers t).get ⟨i, hi⟩) ≤
        numberFamilyRank ((extract_numbers t).get ⟨j, hj⟩) := by
  constructor
  · unfold extract_numbers
    exact List.length_take_le 3 _
  · intro i j hi hj hij
    rcases Nat.lt_or_ge i j with h | h
    · have hp := extract_numbers_pairwise t
      rw [List.pairwise_iff_get] at hp
      exact hp ⟨i, hi⟩ ⟨j, hj⟩ h
    · have : i = j := Nat.le_antisymm hij h
      subst this
      exact le_refl _

/-- C7 witness: on `"Up 12% on $5 billion backlog"` the percentage `12%`
(rank 0) precedes the dollar amount `$5 billion` (rank 1). -/
theorem C7_witness :
    numberFamilyRank ((extract_numbers "Up 12% on $5 billion backlog".data).get
        ⟨0, by decide⟩) ≤
      numberFamilyRank ((extract_numbers "Up 12% on $5 billion backlog".data).get
        ⟨1, by decide⟩) :=
  (C7_extract_numbers_priority "Up 12% on $5 billion backlog".data).2 0 1
    (by decide) (by decide) (by decide)

/-- C8: the classifier table itself reads exactly as specified — `contrarian`
maps to `Psychology`, `stat` to `Data`, `mechanic` to `Business Models` and
`insight` to `Psychology`, and the keyword order puts `contrarian` before
`stat` — but the classification never reaches an emitted card: the rule path
emits nothing for every record, including one whose text contains the keyword
`consensus`, so the types and categories of emitted rule-path cards form the
empty sequence. -/
theorem C8_classifier_never_emits :
    (type_to_category "contrarian".data = "Psychology".data ∧
      type_to_category "stat".data = "Data".data ∧
      type_to_category "mechanic".data = "Business Models".data ∧
      type_to_category "insight".data = "Psychology".data) ∧
    ruleType "the consensus view holds".data ["5%".data] = "contrarian".data ∧
    ruleType "margins rose".data ["5%".data] = "stat".data ∧
    ruleType "growth driven by pricing".data [] = "mechanic".data ∧
    ruleType "margins rose".data [] = "insight".data ∧
    generate_card_rules dedupOrder consensusInsight = [] ∧
    ∀ (o : SetOrder) (ins : Insight),
      (generate_card_rules o ins).map Card.type = [] ∧
      (generate_card_rules o ins).map Card.categories = [] := by
  refine ⟨⟨rfl, rfl, rfl, rfl⟩, by decide, by decide, by decide, by decide,
    generate_card_rules_eq_nil dedupOrder consensusInsight, ?_⟩
  intro o ins
  rw [generate_card_rules_eq_nil]
  exact ⟨rfl, rfl⟩

/-- C9: the expanded field of every emitted card is non-empty:
`generate_expanded_content` never returns an empty string, falls back to the
per-category template when the external deep-dive call raised, and falls back
to the template when the call returned a response of at most 100 characters
after stripping; every card of the AI path carries a non-empty expanded
text. -/
theorem C9_expanded_always_populated :
    (∀ (ext : ExtCall) (cc cat ty sc : Str),
      generate_expanded_content ext cc cat ty sc ≠ [] ∧
      (ext = ExtCall.raised →
        generate_expanded_content ext cc cat ty sc = templateExpanded cat) ∧
      (∀ t, ext = ExtCall.returned t → (strip t).length ≤ 100 →
        generate_expanded_content ext cc cat ty sc = templateExpanded cat)) ∧
    ∀ (o : SetOrder) (ai : AiResult) (ext2 : ExtCall) (ins : Insight) (c : Card),
      c ∈ generate_card_ai o ai ext2 ins → c.expanded ≠ [] := by
  constructor
  · intro ext cc cat ty sc
    refine ⟨gec_ne_nil ext cc cat ty sc, ?_, ?_⟩
    · intro h
      subst h
      rfl
    · intro t h hle
      subst h
      unfold generate_expanded_content
      dsimp only
      rw [if_neg (by omega)]
  · exact mem_generate_card_ai_expanded_ne

/-- C9 witness: a returned 11-character response falls back to the `Data`
template, and the concrete AI-path card `c9Card`, built under a short returned
deep-dive response, has non-empty expanded text. -/
theorem C9_witness :
    generate_expanded_content (ExtCall.returned "short reply".data) [] "Data".data [] []
      = templateExpanded "Data".data ∧
    c9Card.expanded ≠ [] :=
  ⟨(C9_expanded_always_populated.1 (ExtCall.returned "short reply".data) [] "Data".data
      [] []).2.2 "short reply".data rfl (by decide),
    C9_expanded_always_populated.2 dedupOrder (AiResult.parsed [c9Ai])
      (ExtCall.returned "short".data) c9Item c9Card (by decide)⟩

/-- C10: the batch caps of `main` — first 100 insights, first 50 contrarian
views, first 30 AI reports and at most 2 key views per report — mean that
records beyond those caps contribute nothing: trimming the input batches to
the caps leaves the produced card sequence unchanged, both before and after
deduplication. -/
theorem C10_batch_caps (o : SetOrder) (d : Data) :
    mainCards o (capData d) = mainCards o d ∧ mainUnique o (capData d) = mainUnique o d :=
  ⟨mainCards_capData o d, mainUnique_capData o d⟩

end SwipeStreet
